import Mathlib

/-!
# The concurrent task scheduler of `chluder/schlueder.go`

A shallow embedding of the scheduler (`NewScheduler`, `AddTask`, `worker`,
`resultCollector`, `Run`, `PrintReport`, `GetResults`) together with the
properties established about it.

* Sequential code (`PrintReport`, the body of one `worker` iteration) is
  embedded as pure functions.
* `Run` starts goroutines, so it is embedded as an interleaving transition
  system: a state `Sys` holds the scheduler object, the task channel local to
  `Run`, one program counter per goroutine and the wall clock; `step` performs
  one atomic statement of one goroutine, chosen by an `Action`.  An execution
  is a list of actions (`exec`).
* Go's runtime panics (send on a closed channel, close of a closed channel,
  negative `WaitGroup` counter, integer division by zero) are explicit.
* Channels, `sync.WaitGroup`, `sync.Mutex` and package `time` follow their
  documented behaviour; output written by `fmt` is kept only where a property
  is about it (the lines of `PrintReport`).

The file has three parts: the embedding and the invariants as definitions, the
proofs that every statement keeps the invariants, and the main results.
-/

set_option linter.unusedTactic false
set_option linter.unreachableTactic false
set_option linter.unnecessarySeqFocus false

namespace Chluder

/-! ## Data model -/

/-- Go's `error` interface value: `none` is `nil`, `some msg` a non-nil error. -/
abbrev GoError := Option String

/-- Runtime panics of the Go code that the embedding tracks. -/
inductive Panic
  | sendOnClosed
  | closeOfClosed
  | negativeWaitGroup
  | divideByZero
  deriving DecidableEq, Repr

/-- The `Task` interface.  `Name()` is the recorded name; `Execute()` is an
external call whose returned error is supplied by the environment (it is the
payload of the action that makes the call return, see `Action.worker`). -/
structure Task where
  Name : String
  deriving DecidableEq, Repr

/-- The struct `TaskResult`.  A `time.Time` is an instant in nanoseconds on the
clock that `time.Now` reads, a `time.Duration` a number of nanoseconds. -/
structure TaskResult where
  TaskName : String
  StartTime : Int
  EndTime : Int
  Duration : Int
  Error : GoError
  Success : Bool
  deriving DecidableEq, Repr

/-- A Go channel: buffer capacity, buffered elements (head is the oldest) and
the closed flag. -/
structure Chan (α : Type) where
  cap : Nat
  buf : List α
  closed : Bool
  deriving DecidableEq, Repr

/-- The expression `make(chan T, n)`. -/
def Chan.make {α : Type} (n : Nat) : Chan α :=
  { cap := n, buf := [], closed := false }

/-- The struct `Scheduler`.  `wg` is the counter of the `sync.WaitGroup` (`Add`
panics when the counter becomes negative, `Wait` blocks until it is zero), `mu`
is `true` while the mutex is held.  The channel `done` is unbuffered and holds
no state of its own: its one send and one receive meet in a joint step. -/
structure Scheduler where
  tasks : List Task
  results : List TaskResult
  concurrency : Int
  wg : Int
  mu : Bool
  completed : Nat
  totalTasks : Nat
  resultChan : Chan TaskResult
  deriving DecidableEq, Repr

/-- The constructor `NewScheduler(concurrency)`. -/
def NewScheduler (concurrency : Int) : Scheduler :=
  { tasks := []
    results := []
    concurrency := concurrency
    wg := 0
    mu := false
    completed := 0
    totalTasks := 0
    resultChan := Chan.make 100 }

/-- The method `AddTask`. -/
def Scheduler.AddTask (s : Scheduler) (task : Task) : Scheduler :=
  { s with tasks := s.tasks ++ [task] }

/-- The method `GetResults`. -/
def Scheduler.GetResults (s : Scheduler) : List TaskResult :=
  s.results

/-- A scheduler from `NewScheduler(c)` after one `AddTask` per element of `ts`. -/
def submitAll (s : Scheduler) (ts : List Task) : Scheduler :=
  ts.foldl Scheduler.AddTask s

/-! ## Time and 64-bit arithmetic -/

/-- Smallest `int64`. -/
def minInt64 : Int := -9223372036854775808

/-- Largest `int64`. -/
def maxInt64 : Int := 9223372036854775807

/-- Two's-complement wrap-around of an integer into the `int64` range. -/
def wrap64 (x : Int) : Int :=
  (x + 9223372036854775808) % 18446744073709551616 - 9223372036854775808

/-- The call `t.Sub(u)` of package `time`: the difference as a `Duration`,
saturated at the smallest and largest `int64`. -/
def timeSub (t u : Int) : Int :=
  if t - u < minInt64 then minInt64
  else if maxInt64 < t - u then maxInt64
  else t - u

/-- The call `time.Since(start)` when `time.Now()` reads `now`. -/
def timeSince (now start : Int) : Int :=
  timeSub now start

/-! ## One iteration of `worker` -/

/-- The composite literal sent on `resultChan` (lines 82-89): `duration` and
`err` were computed before, `endNow` is what `time.Now()` reads while the
literal is built. -/
def mkResult (task : Task) (start : Int) (err : GoError) (duration : Int)
    (endNow : Int) : TaskResult :=
  { TaskName := task.Name
    StartTime := start
    EndTime := endNow
    Duration := duration
    Error := err
    Success := err.isNone }

/-- The body of the `for task := range taskChan` loop of `worker` run
sequentially: `t0` is read by `start := time.Now()`, `err` is what
`task.Execute()` returns, `t1` is read inside `time.Since(start)` and `t2` by
the `time.Now()` of the literal. -/
def workerIteration (task : Task) (t0 : Int) (err : GoError) (t1 t2 : Int) :
    TaskResult :=
  mkResult task t0 err (timeSince t1 t0) t2

/-! ## `PrintReport` -/

/-- One line printed by the loop of `PrintReport`: the printed index, the task
name and the duration; a failure line also prints the error. -/
inductive ReportLine
  | ok (index : Nat) (name : String) (duration : Int)
  | fail (index : Nat) (name : String) (duration : Int) (err : GoError)
  deriving DecidableEq, Repr

/-- The local variables of `PrintReport` and the lines printed so far. -/
structure ReportAcc where
  totalDuration : Int
  successCount : Int
  failCount : Int
  out : List ReportLine
  deriving DecidableEq, Repr

/-- The body of the loop `for i, result := range s.results` (lines 189-204).
The counters are Go `int`s that never exceed `len(s.results)`; `totalDuration`
is an `int64` and its addition wraps. -/
def reportStep (i : Nat) (result : TaskResult) (acc : ReportAcc) : ReportAcc :=
  if !result.Success then
    { totalDuration := wrap64 (acc.totalDuration + result.Duration)
      successCount := acc.successCount
      failCount := acc.failCount + 1
      out := acc.out ++ [ReportLine.fail (i + 1) result.TaskName result.Duration result.Error] }
  else
    { totalDuration := wrap64 (acc.totalDuration + result.Duration)
      successCount := acc.successCount + 1
      failCount := acc.failCount
      out := acc.out ++ [ReportLine.ok (i + 1) result.TaskName result.Duration] }

/-- The loop of `PrintReport` from index `i` on. -/
def reportLoop : List TaskResult → Nat → ReportAcc → ReportAcc
  | [], _, acc => acc
  | result :: rest, i, acc => reportLoop rest (i + 1) (reportStep i result acc)

/-- What `PrintReport` prints: the per-task lines and the two summary lines. -/
structure Report where
  lines : List ReportLine
  successCount : Int
  failCount : Int
  total : Nat
  totalDuration : Int
  avgDuration : Int
  deriving DecidableEq, Repr

/-- The method `PrintReport` on a scheduler whose `results` field is `results`.
Line 207 divides by `len(s.results)` with Go's truncating integer division; a zero
divisor is the runtime panic "integer divide by zero". -/
def PrintReport (results : List TaskResult) : Except Panic Report :=
  let acc := reportLoop results 0
    { totalDuration := 0, successCount := 0, failCount := 0, out := [] }
  if results.length = 0 then
    Except.error Panic.divideByZero
  else
    Except.ok
      { lines := acc.out
        successCount := acc.successCount
        failCount := acc.failCount
        total := results.length
        totalDuration := acc.totalDuration
        avgDuration := Int.tdiv acc.totalDuration (results.length : Int) }

/-- The method `PrintReport` as called on a scheduler. -/
def Scheduler.PrintReport (s : Scheduler) : Except Panic Report :=
  Chluder.PrintReport s.results

/-! ### Reference definitions of the report statistics -/

/-- Reference: the number of results with `Success = true`. -/
def refSuccessCount (results : List TaskResult) : Nat :=
  results.countP (fun r => r.Success)

/-- Reference: the number of results with `Success = false`. -/
def refFailCount (results : List TaskResult) : Nat :=
  results.countP (fun r => !r.Success)

/-- Reference: the sum of all `Duration` values as an `int64`. -/
def refTotalDuration (results : List TaskResult) : Int :=
  wrap64 (results.map (fun r => r.Duration)).sum

/-- Reference: the line printed for the result stored at position `i`. -/
def refLine (i : Nat) (r : TaskResult) : ReportLine :=
  if r.Success then ReportLine.ok (i + 1) r.TaskName r.Duration
  else ReportLine.fail (i + 1) r.TaskName r.Duration r.Error

/-- Reference: one line per result, in stored order. -/
def refLines : List TaskResult → Nat → List ReportLine
  | [], _ => []
  | r :: rest, i => refLine i r :: refLines rest (i + 1)

/-! ## The goroutines of `Run` -/

/-- Program counter of the goroutine that calls `Run`: the statement it
executes next. -/
inductive MainPc
  /-- Lines 119-126: snapshot `totalTasks`, reset `completed` and `results`,
  make `taskChan`. -/
  | start
  /-- Line 129: `go s.resultCollector()`. -/
  | spawnCollector
  /-- Line 132: `s.wg.Add(s.concurrency)`. -/
  | wgAdd
  /-- Lines 133-136: the loop `for i := 0; i < s.concurrency; i++`. -/
  | spawn (i : Nat)
  /-- Lines 139-141: the loop over `s.tasks`, about to send the task at index `k`. -/
  | push (k : Nat)
  /-- Line 143: `close(taskChan)`. -/
  | closeTasks
  /-- Line 146: `s.wg.Wait()`. -/
  | wait
  /-- Line 148: `close(s.resultChan)`. -/
  | closeResults
  /-- Line 151: the receive from `s.done`. -/
  | recvDone
  /-- The call of `Run` has returned. -/
  | returned
  deriving DecidableEq, Repr

/-- Program counter of one `worker` goroutine. -/
inductive WorkerPc
  /-- Line 71: receiving from `taskChan`. -/
  | idle
  /-- Line 72: holds `task`, about to read `start := time.Now()` and call `Execute`. -/
  | fetched (task : Task)
  /-- Line 75: inside `task.Execute()`. -/
  | executing (task : Task) (start : Int)
  /-- Line 77: `Execute` returned `err`, about to evaluate `time.Since(start)`. -/
  | returned (task : Task) (start : Int) (err : GoError)
  /-- Lines 79-89: about to build the `TaskResult` literal. -/
  | measured (task : Task) (start : Int) (err : GoError) (duration : Int)
  /-- Line 82: sending the literal on `s.resultChan`. -/
  | publishing (r : TaskResult)
  /-- The loop has ended and the deferred `s.wg.Done()` has run. -/
  | exited
  deriving DecidableEq, Repr

/-- Program counter of the `resultCollector` goroutine. -/
inductive CollectorPc
  /-- Line 97: receiving from `s.resultChan`. -/
  | recv
  /-- Line 99: `s.mu.Lock()`. -/
  | lock (r : TaskResult)
  /-- Line 101: `s.results = append(s.results, result)`. -/
  | append (r : TaskResult)
  /-- Lines 103-107: `s.completed++` (and the progress line). -/
  | incr
  /-- Line 109: `s.mu.Unlock()`. -/
  | unlock
  /-- Line 112: the send on `s.done`. -/
  | sendDone
  /-- The goroutine has ended. -/
  | exited
  deriving DecidableEq, Repr

/-- The state of the process while `Run` executes. -/
structure Sys where
  sched : Scheduler
  taskChan : Chan Task
  main : MainPc
  collector : Option CollectorPc
  workers : List WorkerPc
  clock : Int
  panicked : Option Panic
  deriving DecidableEq, Repr

/-- One scheduling decision: time passes, or one goroutine executes its next
statement.  The payload `err` of a worker action is the value `Execute`
returns when that action is the return of `Execute`; it is ignored otherwise. -/
inductive Action
  | tick (d : Nat)
  | main
  | collector
  | worker (i : Nat) (err : GoError)
  deriving DecidableEq, Repr

/-- The state in which `Run` is entered on scheduler `sch` when the clock reads
`now`: no goroutine of this call exists yet.  Goroutines of an earlier `Run`
are not part of the state: when that `Run` has returned they have all ended
(fields `hjoin` and `hexit` of `Inv`). -/
def runInit (sch : Scheduler) (now : Int) : Sys :=
  { sched := sch
    taskChan := Chan.make 0
    main := MainPc.start
    collector := none
    workers := []
    clock := now
    panicked := none }

/-- The process dies with panic `p`. -/
def Sys.die (s : Sys) (p : Panic) : Sys :=
  { s with panicked := some p }

/-- One statement of `Run` (lines 117-154).  `none` means the goroutine is
blocked or has returned.  A send on a buffered channel blocks while the buffer
is full and panics when the channel is closed; closing a closed channel panics. -/
def RunStep (s : Sys) : Option Sys :=
  match s.main with
  | MainPc.start =>
    some { s with
      sched := { s.sched with
        totalTasks := s.sched.tasks.length, completed := 0, results := [] }
      taskChan := Chan.make s.sched.tasks.length
      main := MainPc.spawnCollector }
  | MainPc.spawnCollector =>
    some { s with collector := some CollectorPc.recv, main := MainPc.wgAdd }
  | MainPc.wgAdd =>
    if s.sched.wg + s.sched.concurrency < 0 then
      some (s.die Panic.negativeWaitGroup)
    else
      some { s with
        sched := { s.sched with wg := s.sched.wg + s.sched.concurrency }
        main := MainPc.spawn 0 }
  | MainPc.spawn i =>
    if (i : Int) < s.sched.concurrency then
      some { s with workers := s.workers ++ [WorkerPc.idle], main := MainPc.spawn (i + 1) }
    else
      some { s with main := MainPc.push 0 }
  | MainPc.push k =>
    match s.sched.tasks[k]? with
    | some task =>
      if s.taskChan.closed then
        some (s.die Panic.sendOnClosed)
      else if s.taskChan.buf.length < s.taskChan.cap then
        some { s with
          taskChan := { s.taskChan with buf := s.taskChan.buf ++ [task] }
          main := MainPc.push (k + 1) }
      else
        none
    | none => some { s with main := MainPc.closeTasks }
  | MainPc.closeTasks =>
    if s.taskChan.closed then
      some (s.die Panic.closeOfClosed)
    else
      some { s with taskChan := { s.taskChan with closed := true }, main := MainPc.wait }
  | MainPc.wait =>
    if s.sched.wg = 0 then some { s with main := MainPc.closeResults } else none
  | MainPc.closeResults =>
    if s.sched.resultChan.closed then
      some (s.die Panic.closeOfClosed)
    else
      some { s with
        sched := { s.sched with resultChan := { s.sched.resultChan with closed := true } }
        main := MainPc.recvDone }
  | MainPc.recvDone =>
    match s.collector with
    | some CollectorPc.sendDone =>
      some { s with collector := some CollectorPc.exited, main := MainPc.returned }
    | _ => none
  | MainPc.returned => none

/-- One statement of `resultCollector` (lines 95-113).  A receive takes the
oldest buffered result, ends the loop when the channel is closed and empty, and
blocks otherwise.  The progress line of lines 105-107 is output only.  The send
on the unbuffered `done` happens jointly with the receive of `Run`, in `RunStep`. -/
def resultCollectorStep (s : Sys) : Option Sys :=
  match s.collector with
  | none => none
  | some CollectorPc.recv =>
    match s.sched.resultChan.buf with
    | r :: rest =>
      some { s with
        sched := { s.sched with resultChan := { s.sched.resultChan with buf := rest } }
        collector := some (CollectorPc.lock r) }
    | [] =>
      if s.sched.resultChan.closed then
        some { s with collector := some CollectorPc.sendDone }
      else
        none
  | some (CollectorPc.lock r) =>
    if s.sched.mu then
      none
    else
      some { s with
        sched := { s.sched with mu := true }
        collector := some (CollectorPc.append r) }
  | some (CollectorPc.append r) =>
    some { s with
      sched := { s.sched with results := s.sched.results ++ [r] }
      collector := some CollectorPc.incr }
  | some CollectorPc.incr =>
    some { s with
      sched := { s.sched with completed := s.sched.completed + 1 }
      collector := some CollectorPc.unlock }
  | some CollectorPc.unlock =>
    some { s with
      sched := { s.sched with mu := false }
      collector := some CollectorPc.recv }
  | some CollectorPc.sendDone => none
  | some CollectorPc.exited => none

/-- One statement of the worker with index `i` (lines 66-91).  When the task
channel is closed and empty the loop ends and the deferred `s.wg.Done()` runs. -/
def workerStep (s : Sys) (i : Nat) (err : GoError) : Option Sys :=
  match s.workers[i]? with
  | none => none
  | some WorkerPc.idle =>
    match s.taskChan.buf with
    | task :: rest =>
      some { s with
        taskChan := { s.taskChan with buf := rest }
        workers := s.workers.set i (WorkerPc.fetched task) }
    | [] =>
      if s.taskChan.closed then
        if s.sched.wg - 1 < 0 then
          some (s.die Panic.negativeWaitGroup)
        else
          some { s with
            sched := { s.sched with wg := s.sched.wg - 1 }
            workers := s.workers.set i WorkerPc.exited }
      else
        none
  | some (WorkerPc.fetched task) =>
    some { s with workers := s.workers.set i (WorkerPc.executing task s.clock) }
  | some (WorkerPc.executing task start) =>
    some { s with workers := s.workers.set i (WorkerPc.returned task start err) }
  | some (WorkerPc.returned task start e) =>
    some { s with
      workers := s.workers.set i (WorkerPc.measured task start e (timeSince s.clock start)) }
  | some (WorkerPc.measured task start e duration) =>
    some { s with
      workers := s.workers.set i (WorkerPc.publishing (mkResult task start e duration s.clock)) }
  | some (WorkerPc.publishing r) =>
    if s.sched.resultChan.closed then
      some (s.die Panic.sendOnClosed)
    else if s.sched.resultChan.buf.length < s.sched.resultChan.cap then
      some { s with
        sched := { s.sched with
          resultChan := { s.sched.resultChan with buf := s.sched.resultChan.buf ++ [r] } }
        workers := s.workers.set i WorkerPc.idle }
    else
      none
  | some WorkerPc.exited => none

/-- One step of the process: nothing runs after a panic; otherwise the clock
advances or the chosen goroutine executes one statement. -/
def step (s : Sys) (a : Action) : Option Sys :=
  match s.panicked with
  | some _ => none
  | none =>
    match a with
    | Action.tick d => some { s with clock := s.clock + d }
    | Action.main => RunStep s
    | Action.collector => resultCollectorStep s
    | Action.worker i err => workerStep s i err

/-- Run a schedule: `none` when some action of it is not enabled. -/
def exec : Sys → List Action → Option Sys
  | s, [] => some s
  | s, a :: rest =>
    match step s a with
    | none => none
    | some s1 => exec s1 rest

/-! ## Observations on states, used to state the invariants -/

/-- How far `Run` has got: the position of the next statement. -/
@[simp] def MainPc.stage : MainPc → Nat
  | MainPc.start => 0
  | MainPc.spawnCollector => 1
  | MainPc.wgAdd => 2
  | MainPc.spawn _ => 3
  | MainPc.push _ => 4
  | MainPc.closeTasks => 5
  | MainPc.wait => 6
  | MainPc.closeResults => 7
  | MainPc.recvDone => 8
  | MainPc.returned => 9

/-- The number of workers `Run` has started so far, for concurrency `c`. -/
@[simp] def MainPc.spawned (c : Int) : MainPc → Int
  | MainPc.start => 0
  | MainPc.spawnCollector => 0
  | MainPc.wgAdd => 0
  | MainPc.spawn i => i
  | _ => c

/-- The part of the `WaitGroup` counter that stands for workers not started yet. -/
@[simp] def MainPc.unspawned (c : Int) : MainPc → Int
  | MainPc.spawn i => c - i
  | _ => 0

/-- The tasks `Run` has not yet sent on `taskChan`. -/
@[simp] def MainPc.pending (ts : List Task) : MainPc → List Task
  | MainPc.start => ts
  | MainPc.spawnCollector => ts
  | MainPc.wgAdd => ts
  | MainPc.spawn _ => ts
  | MainPc.push k => ts.drop k
  | _ => []

/-- Is the worker goroutine alive (1), or has it ended (0)? -/
@[simp] def WorkerPc.live : WorkerPc → Nat
  | WorkerPc.exited => 0
  | _ => 1

/-- Has the worker goroutine ended (1), or not (0)? -/
@[simp] def WorkerPc.gone : WorkerPc → Nat
  | WorkerPc.exited => 1
  | _ => 0

/-- Is the worker inside `Execute` (1), or not (0)? -/
@[simp] def WorkerPc.running : WorkerPc → Nat
  | WorkerPc.executing _ _ => 1
  | _ => 0

/-- The `f`-weight of the task, or of the result, a worker holds. -/
@[simp] def WorkerPc.held (f : String → Nat) : WorkerPc → Nat
  | WorkerPc.idle => 0
  | WorkerPc.fetched t => f t.Name
  | WorkerPc.executing t _ => f t.Name
  | WorkerPc.returned t _ _ => f t.Name
  | WorkerPc.measured t _ _ _ => f t.Name
  | WorkerPc.publishing r => f r.TaskName
  | WorkerPc.exited => 0

/-- The `f`-weight of the result the collector has received and not yet appended. -/
@[simp] def collHeld (f : String → Nat) : Option CollectorPc → Nat
  | some (CollectorPc.lock r) => f r.TaskName
  | some (CollectorPc.append r) => f r.TaskName
  | _ => 0

/-- Does the collector hold the mutex? -/
@[simp] def collLocked : Option CollectorPc → Bool
  | some (CollectorPc.append _) => true
  | some CollectorPc.incr => true
  | some CollectorPc.unlock => true
  | _ => false

/-- The collector has appended a result and not yet counted it (1), or not (0). -/
@[simp] def collUncounted : Option CollectorPc → Nat
  | some CollectorPc.incr => 1
  | _ => 0

/-- Has the collector left its receive loop? -/
@[simp] def collFinished : Option CollectorPc → Bool
  | some CollectorPc.sendDone => true
  | some CollectorPc.exited => true
  | _ => false

/-- Sum of an observation over all workers. -/
def wsum (f : WorkerPc → Nat) (l : List WorkerPc) : Nat :=
  (l.map f).sum

/-- Total `f`-weight of the names of a list of tasks. -/
def taskWeight (f : String → Nat) (l : List Task) : Nat :=
  (l.map (fun t => f t.Name)).sum

/-- Total `f`-weight of the names of a list of results. -/
def resWeight (f : String → Nat) (l : List TaskResult) : Nat :=
  (l.map (fun r => f r.TaskName)).sum

/-- The invariant of a first `Run` on a scheduler built by `NewScheduler c` and
`AddTask` of the tasks `ts`. -/
structure Inv (c : Int) (ts : List Task) (s : Sys) : Prop where
  hc : 0 ≤ c
  hp : s.panicked = none
  htasks : s.sched.tasks = ts
  hconc : s.sched.concurrency = c
  hcap : s.sched.resultChan.cap = 100
  htot : 1 ≤ s.main.stage → s.sched.totalTasks = ts.length ∧ s.taskChan.cap = ts.length
  hcoll : s.collector = none ↔ s.main.stage ≤ 1
  hwlen : (s.workers.length : Int) = s.main.spawned c
  hwle : s.main.spawned c ≤ c
  hwg : s.sched.wg = s.main.unspawned c + (wsum WorkerPc.live s.workers : Int)
  hlg : wsum WorkerPc.live s.workers + wsum WorkerPc.gone s.workers = s.workers.length
  hjoin : 7 ≤ s.main.stage → wsum WorkerPc.live s.workers = 0
  hgone : 0 < wsum WorkerPc.gone s.workers → s.taskChan.closed = true ∧ s.taskChan.buf = []
  htclosed : s.taskChan.closed = true ↔ 6 ≤ s.main.stage
  hrclosed : s.sched.resultChan.closed = true ↔ 8 ≤ s.main.stage
  hmu : s.sched.mu = collLocked s.collector
  hcomp : s.sched.completed + collUncounted s.collector = s.sched.results.length
  hfin : collFinished s.collector = true →
    s.sched.resultChan.closed = true ∧ s.sched.resultChan.buf = []
  hexit : s.collector = some CollectorPc.exited ↔ s.main.stage = 9
  hfresh : s.main.stage = 0 → s.sched.resultChan.buf = []
  acct : ∀ f : String → Nat, 1 ≤ s.main.stage →
    taskWeight f (s.main.pending ts) + taskWeight f s.taskChan.buf
      + wsum (WorkerPc.held f) s.workers + resWeight f s.sched.resultChan.buf
      + collHeld f s.collector + resWeight f s.sched.results = taskWeight f ts

/-- The invariant of a second `Run`, entered on a scheduler whose result
channel an earlier `Run` has closed and drained.  It also holds of the state
in which the process has died. -/
structure Inv2 (c : Int) (ts : List Task) (s : Sys) : Prop where
  hc : 0 ≤ c
  hp : s.panicked = none ∨ s.panicked = some Panic.sendOnClosed ∨
    s.panicked = some Panic.closeOfClosed
  htasks : s.sched.tasks = ts
  hconc : s.sched.concurrency = c
  htot : 1 ≤ s.main.stage → s.sched.totalTasks = ts.length ∧ s.taskChan.cap = ts.length
  hwlen : (s.workers.length : Int) = s.main.spawned c
  hwle : s.main.spawned c ≤ c
  hwg : s.sched.wg = s.main.unspawned c + (wsum WorkerPc.live s.workers : Int)
  htclosed : s.taskChan.closed = true ↔ 6 ≤ s.main.stage
  hrclosed : s.sched.resultChan.closed = true
  hrbuf : s.sched.resultChan.buf = []
  hstage : s.main.stage ≤ 7
  hcoll : s.collector = none ∨ s.collector = some CollectorPc.recv ∨
    s.collector = some CollectorPc.sendDone
  hcollst : s.collector = none ↔ s.main.stage ≤ 1
  hcomp : 1 ≤ s.main.stage → s.sched.completed = 0 ∧ s.sched.results = []
  hlen : 1 ≤ s.main.stage →
    (s.main.pending ts).length + s.taskChan.buf.length ≤ ts.length

/-- What holds throughout a first `Run` when the concurrency is negative:
`Run` never gets past `s.wg.Add`. -/
structure InvNeg (c : Int) (s : Sys) : Prop where
  hconc : s.sched.concurrency = c
  hwg : s.sched.wg = 0
  hstage : s.main.stage ≤ 2
  hworkers : s.workers = []

/-- What holds throughout a first `Run` when the concurrency is zero: no
worker exists and no result is ever produced. -/
structure InvZero (s : Sys) : Prop where
  hconc : s.sched.concurrency = 0
  hworkers : s.workers = []
  hrbuf : s.sched.resultChan.buf = []
  hres : s.sched.results = []
  hcomp : s.sched.completed = 0
  hcoll : s.collector = none ∨ s.collector = some CollectorPc.recv ∨
    s.collector = some CollectorPc.sendDone ∨ s.collector = some CollectorPc.exited
  hsent : s.taskChan.buf.length + (s.main.pending s.sched.tasks).length = s.sched.tasks.length

/-- The data-model invariant of a result: the success flag is set exactly when
there is no failure cause. -/
def honest (r : TaskResult) : Prop :=
  r.Success = r.Error.isNone

/-- Every result that exists anywhere in the process (held by a worker,
buffered in the result channel, held by the collector, or recorded) is `honest`. -/
structure InvHonest (s : Sys) : Prop where
  hres : ∀ r, r ∈ s.sched.results → honest r
  hbuf : ∀ r, r ∈ s.sched.resultChan.buf → honest r
  hcoll : ∀ r, s.collector = some (CollectorPc.lock r) ∨
    s.collector = some (CollectorPc.append r) → honest r
  hwork : ∀ r, WorkerPc.publishing r ∈ s.workers → honest r

/-- The state `s` is reached by some schedule of a first `Run` on a scheduler
built by `NewScheduler c` and `AddTask` of the tasks `ts`. -/
def FirstRun (c : Int) (ts : List Task) (s : Sys) : Prop :=
  ∃ (now : Int) (acts : List Action),
    exec (runInit (submitAll (NewScheduler c) ts) now) acts = some s

/-- The state `s` is reached by some schedule of a second `Run`, entered after
a first `Run` has returned and further tasks may have been added; `ts` is the
task list of the second `Run`. -/
def SecondRun (c : Int) (ts : List Task) (s : Sys) : Prop :=
  ∃ (ts0 extra : List Task) (s1 : Sys) (now : Int) (acts : List Action),
    FirstRun c ts0 s1 ∧ s1.main = MainPc.returned ∧ ts = ts0 ++ extra ∧
      exec (runInit (submitAll s1.sched extra) now) acts = some s

/-! ## A bound on the work that is left -/

/-- Statements a worker still executes before it ends, when no further task
reaches it; a held task or result counts the statements it still causes. -/
@[simp] def WorkerPc.rank : WorkerPc → Nat
  | WorkerPc.exited => 0
  | WorkerPc.idle => 1
  | WorkerPc.publishing _ => 8
  | WorkerPc.measured _ _ _ _ => 9
  | WorkerPc.returned _ _ _ => 10
  | WorkerPc.executing _ _ => 11
  | WorkerPc.fetched _ => 12

/-- Statements the collector still executes when no further result reaches it. -/
@[simp] def collRank : Option CollectorPc → Nat
  | none => 0
  | some CollectorPc.exited => 0
  | some CollectorPc.sendDone => 1
  | some CollectorPc.recv => 2
  | some CollectorPc.unlock => 3
  | some CollectorPc.incr => 4
  | some (CollectorPc.append _) => 5
  | some (CollectorPc.lock _) => 6

/-- Statements `Run` still executes, with the work each of them starts, for
`n` submitted tasks and concurrency `c`. -/
@[simp] def MainPc.rank (n : Nat) (c : Int) : MainPc → Nat
  | MainPc.returned => 0
  | MainPc.recvDone => 1
  | MainPc.closeResults => 2
  | MainPc.wait => 3
  | MainPc.closeTasks => 4
  | MainPc.push k => 5 + 13 * (n - k)
  | MainPc.spawn i => 6 + 13 * n + 2 * (c - i).toNat
  | MainPc.wgAdd => 7 + 13 * n + 2 * c.toNat
  | MainPc.spawnCollector => 10 + 13 * n + 2 * c.toNat
  | MainPc.start => 11 + 13 * n + 2 * c.toNat

/-- An upper bound on the number of statements the goroutines of `Run` still
execute from state `s`. -/
def workLeft (s : Sys) : Nat :=
  s.main.rank s.sched.tasks.length s.sched.concurrency
    + 12 * s.taskChan.buf.length + wsum WorkerPc.rank s.workers
    + 6 * s.sched.resultChan.buf.length + collRank s.collector

/-- Is the action a statement of some goroutine (and not the passing of time)? -/
def Action.isStmt : Action → Bool
  | Action.tick _ => false
  | _ => true

/-- The number of goroutine statements in a schedule. -/
def stmtCount (acts : List Action) : Nat :=
  acts.countP Action.isStmt

/-! ## Concrete runs -/

/-- Two tasks for the concrete runs. -/
def demoTasks : List Task :=
  [{ Name := "a" }, { Name := "b" }]

/-- A complete schedule of a first `Run` with two workers on `demoTasks`, in
which task `b` fails and finishes before task `a`. -/
def demoSchedule : List Action :=
  [Action.main, Action.main, Action.main, Action.main, Action.main,
   Action.main, Action.main, Action.main, Action.main, Action.main,
   Action.worker 0 none, Action.worker 1 none, Action.worker 0 none, Action.tick 3,
   Action.worker 1 none, Action.worker 1 (some "boom"), Action.tick 1,
   Action.worker 1 none, Action.worker 1 none, Action.worker 1 none,
   Action.collector, Action.worker 0 none, Action.tick 2, Action.worker 0 none,
   Action.tick 1, Action.worker 0 none,
   Action.collector, Action.collector, Action.worker 0 none, Action.collector,
   Action.collector, Action.worker 0 none, Action.worker 1 none, Action.main,
   Action.collector, Action.collector, Action.collector, Action.collector,
   Action.collector, Action.main, Action.collector, Action.main]

/-- A schedule of a second `Run` (three tasks, two workers) up to the first
send on the closed result channel. -/
def demoSchedule2 : List Action :=
  [Action.main, Action.main, Action.main, Action.main, Action.main,
   Action.main, Action.main, Action.main, Action.main, Action.main,
   Action.worker 0 none, Action.worker 0 none, Action.worker 0 none,
   Action.worker 0 none, Action.worker 0 none, Action.worker 0 none]

/-- A complete schedule of a first `Run` with concurrency zero on `demoTasks`. -/
def zeroSchedule : List Action :=
  [Action.main, Action.main, Action.main, Action.main, Action.main,
   Action.main, Action.main, Action.main, Action.main, Action.main,
   Action.collector, Action.main]

/-- A complete schedule of a first `Run` with one worker and no task. -/
def emptySchedule : List Action :=
  [Action.main, Action.main, Action.main, Action.main, Action.main,
   Action.main, Action.main, Action.worker 0 none, Action.main, Action.main,
   Action.collector, Action.main]

/-- The result recorded for task `a` in `demoSchedule`. -/
def demoResultA : TaskResult :=
  { TaskName := "a", StartTime := 0, EndTime := 7, Duration := 6, Error := none,
    Success := true }

/-- The result recorded for task `b` in `demoSchedule`. -/
def demoResultB : TaskResult :=
  { TaskName := "b", StartTime := 3, EndTime := 4, Duration := 1, Error := some "boom",
    Success := false }

/-- The state in which `demoSchedule` ends: `Run` has returned. -/
def demoFinal : Sys :=
  { sched :=
      { tasks := demoTasks
        results := [demoResultB, demoResultA]
        concurrency := 2
        wg := 0
        mu := false
        completed := 2
        totalTasks := 2
        resultChan := { cap := 100, buf := [], closed := true } }
    taskChan := { cap := 2, buf := [], closed := true }
    main := MainPc.returned
    collector := some CollectorPc.exited
    workers := [WorkerPc.exited, WorkerPc.exited]
    clock := 7
    panicked := none }

/-- The state after the first thirty actions of `demoSchedule`. -/
def demoMid : Sys :=
  { sched :=
      { tasks := demoTasks
        results := [demoResultB]
        concurrency := 2
        wg := 2
        mu := true
        completed := 1
        totalTasks := 2
        resultChan := { cap := 100, buf := [demoResultA], closed := false } }
    taskChan := { cap := 2, buf := [], closed := true }
    main := MainPc.wait
    collector := some CollectorPc.unlock
    workers := [WorkerPc.idle, WorkerPc.idle]
    clock := 7
    panicked := none }

/-- The state after the first eleven actions of `demoSchedule`: worker 0 has
fetched task `a`. -/
def demoFetched : Sys :=
  { sched :=
      { tasks := demoTasks
        results := []
        concurrency := 2
        wg := 2
        mu := false
        completed := 0
        totalTasks := 2
        resultChan := { cap := 100, buf := [], closed := false } }
    taskChan := { cap := 2, buf := [{ Name := "b" }], closed := true }
    main := MainPc.wait
    collector := some CollectorPc.recv
    workers := [WorkerPc.fetched { Name := "a" }, WorkerPc.idle]
    clock := 0
    panicked := none }

/-- The state in which `demoSchedule2` ends, run as a second `Run` after
`demoSchedule` and one more `AddTask`: the process has died. -/
def demoDead : Sys :=
  { sched :=
      { tasks := demoTasks ++ [{ Name := "c" }]
        results := []
        concurrency := 2
        wg := 2
        mu := false
        completed := 0
        totalTasks := 3
        resultChan := { cap := 100, buf := [], closed := true } }
    taskChan := { cap := 3, buf := [{ Name := "b" }, { Name := "c" }], closed := false }
    main := MainPc.closeTasks
    collector := some CollectorPc.recv
    workers :=
      [WorkerPc.publishing
        { TaskName := "a", StartTime := 9, EndTime := 9, Duration := 0, Error := none,
          Success := true },
       WorkerPc.idle]
    clock := 9
    panicked := some Panic.sendOnClosed }

/-- The state in which `zeroSchedule` ends: `Run` has returned. -/
def zeroFinal : Sys :=
  { sched :=
      { tasks := demoTasks
        results := []
        concurrency := 0
        wg := 0
        mu := false
        completed := 0
        totalTasks := 2
        resultChan := { cap := 100, buf := [], closed := true } }
    taskChan := { cap := 2, buf := demoTasks, closed := true }
    main := MainPc.returned
    collector := some CollectorPc.exited
    workers := []
    clock := 0
    panicked := none }

/-- The state in which `emptySchedule` ends: `Run` has returned. -/
def emptyFinal : Sys :=
  { sched :=
      { tasks := []
        results := []
        concurrency := 1
        wg := 0
        mu := false
        completed := 0
        totalTasks := 0
        resultChan := { cap := 100, buf := [], closed := true } }
    taskChan := { cap := 0, buf := [], closed := true }
    main := MainPc.returned
    collector := some CollectorPc.exited
    workers := [WorkerPc.exited]
    clock := 0
    panicked := none }

/-! ## Basic facts about the observations -/

@[simp] theorem wsum_nil (f : WorkerPc → Nat) : wsum f [] = 0 := rfl

@[simp] theorem wsum_cons (f : WorkerPc → Nat) (w : WorkerPc) (l : List WorkerPc) :
    wsum f (w :: l) = f w + wsum f l := by
  simp [wsum]

@[simp] theorem wsum_snoc (f : WorkerPc → Nat) (l : List WorkerPc) (w : WorkerPc) :
    wsum f (l ++ [w]) = wsum f l + f w := by
  simp [wsum]

/-- Replacing the program counter of one worker moves its contribution to a sum. -/
theorem wsum_set (f : WorkerPc → Nat) :
    ∀ (l : List WorkerPc) (i : Nat) (w x : WorkerPc), l[i]? = some w →
      wsum f (l.set i x) + f w = wsum f l + f x
  | [], i, w, x, h => by simp at h
  | v :: l, 0, w, x, h => by
    simp at h
    subst h
    simp
    omega
  | v :: l, i + 1, w, x, h => by
    simp at h
    have ih := wsum_set f l i w x h
    simp
    omega

@[simp] theorem taskWeight_nil (f : String → Nat) : taskWeight f [] = 0 := rfl

@[simp] theorem taskWeight_cons (f : String → Nat) (t : Task) (l : List Task) :
    taskWeight f (t :: l) = f t.Name + taskWeight f l := by
  simp [taskWeight]

@[simp] theorem taskWeight_snoc (f : String → Nat) (l : List Task) (t : Task) :
    taskWeight f (l ++ [t]) = taskWeight f l + f t.Name := by
  simp [taskWeight]

@[simp] theorem resWeight_nil (f : String → Nat) : resWeight f [] = 0 := rfl

@[simp] theorem resWeight_cons (f : String → Nat) (r : TaskResult) (l : List TaskResult) :
    resWeight f (r :: l) = f r.TaskName + resWeight f l := by
  simp [resWeight]

@[simp] theorem resWeight_snoc (f : String → Nat) (l : List TaskResult) (r : TaskResult) :
    resWeight f (l ++ [r]) = resWeight f l + f r.TaskName := by
  simp [resWeight]

theorem taskWeight_one (l : List Task) : taskWeight (fun _ => 1) l = l.length := by
  induction l with
  | nil => rfl
  | cons t l ih => simp [ih]; omega

theorem resWeight_one (l : List TaskResult) : resWeight (fun _ => 1) l = l.length := by
  induction l with
  | nil => rfl
  | cons t l ih => simp [ih]; omega

theorem taskWeight_count (a : String) (l : List Task) :
    taskWeight (fun x => if x = a then 1 else 0) l = (l.map Task.Name).count a := by
  induction l with
  | nil => rfl
  | cons t l ih =>
    by_cases h : t.Name = a <;> simp [ih, h, List.count_cons] <;> omega

theorem resWeight_count (a : String) (l : List TaskResult) :
    resWeight (fun x => if x = a then 1 else 0) l = (l.map TaskResult.TaskName).count a := by
  induction l with
  | nil => rfl
  | cons t l ih =>
    by_cases h : t.TaskName = a <;> simp [ih, h, List.count_cons] <;> omega

theorem mkResult_name (t : Task) (start : Int) (e : GoError) (d : Int) (n : Int) :
    (mkResult t start e d n).TaskName = t.Name := rfl

/-! ## The scheduler a caller builds -/

theorem submitAll_eq (s : Scheduler) (ts : List Task) :
    submitAll s ts = { s with tasks := s.tasks ++ ts } := by
  induction ts generalizing s with
  | nil => simp [submitAll]
  | cons t ts ih =>
    have h := ih (s.AddTask t)
    simp only [submitAll, List.foldl_cons] at h ⊢
    rw [h]
    simp [Scheduler.AddTask]

theorem submitAll_new (c : Int) (ts : List Task) :
    submitAll (NewScheduler c) ts =
      { tasks := ts, results := [], concurrency := c, wg := 0, mu := false,
        completed := 0, totalTasks := 0, resultChan := Chan.make 100 } := by
  rw [submitAll_eq]
  simp [NewScheduler]

/-- The invariant holds when `Run` is entered for the first time. -/
theorem Inv_runInit (c : Int) (hc : 0 ≤ c) (ts : List Task) (now : Int) :
    Inv c ts (runInit (submitAll (NewScheduler c) ts) now) := by
  rw [submitAll_new]
  constructor <;> simp [runInit, Chan.make, hc]

theorem drop_of_getElem? {α : Type} (l : List α) (k : Nat) (x : α) (h : l[k]? = some x) :
    l.drop k = x :: l.drop (k + 1) := by
  have hk : k < l.length := by
    by_contra hn
    rw [List.getElem?_eq_none (by omega)] at h
    cases h
  rw [List.drop_eq_getElem_cons hk]
  rw [List.getElem?_eq_getElem hk] at h
  cases h
  rfl

/-! ## Every statement of `Run` keeps the invariant -/

theorem Inv_main_start (c : Int) (ts : List Task) (s s1 : Sys) (h : Inv c ts s)
    (hm : s.main = MainPc.start) (hs : RunStep s = some s1) : Inv c ts s1 := by
  obtain ⟨hc, hp, htasks, hconc, hcap, htot, hcoll, hwlen, hwle, hwg, hlg, hjoin, hgone,
    htclosed, hrclosed, hmu, hcomp, hfin, hexit, hfresh, acct⟩ := h
  obtain ⟨sched, taskChan, main, coll, workers, clock, panicked⟩ := s
  obtain ⟨tasks, results, conc, wg, mu, completed, totalTasks, resultChan⟩ := sched
  simp only at hm
  subst hm
  simp only at hp htasks hconc
  subst hp htasks hconc
  simp only [RunStep, Sys.die] at hs
  simp only [Option.some.injEq] at hs
  subst hs
  simp_all [Chan.make]
  constructor <;> first
    | assumption
    | omega
    | (intro f _; have hf := acct f; simp; omega)
    | (simp [*, Chan.make]; done)
    | (simp [*, Chan.make]; omega)
    | (intros; simp_all [Chan.make]; done)
    | (intros; simp_all [Chan.make]; omega)

theorem Inv_main_spawnCollector (c : Int) (ts : List Task) (s s1 : Sys) (h : Inv c ts s)
    (hm : s.main = MainPc.spawnCollector) (hs : RunStep s = some s1) : Inv c ts s1 := by
  obtain ⟨hc, hp, htasks, hconc, hcap, htot, hcoll, hwlen, hwle, hwg, hlg, hjoin, hgone,
    htclosed, hrclosed, hmu, hcomp, hfin, hexit, hfresh, acct⟩ := h
  obtain ⟨sched, taskChan, main, coll, workers, clock, panicked⟩ := s
  obtain ⟨tasks, results, conc, wg, mu, completed, totalTasks, resultChan⟩ := sched
  simp only at hm
  subst hm
  simp only at hp htasks hconc
  subst hp htasks hconc
  simp only [RunStep, Sys.die] at hs
  simp only [Option.some.injEq] at hs
  subst hs
  simp_all
  constructor <;> first
    | assumption
    | omega
    | (intro f _; have hf := acct f; simp; omega)
    | (simp [*]; done)
    | (simp [*]; omega)
    | (intros; simp_all; done)
    | (intros; simp_all; omega)

theorem Inv_main_wgAdd (c : Int) (ts : List Task) (s s1 : Sys) (h : Inv c ts s)
    (hm : s.main = MainPc.wgAdd) (hs : RunStep s = some s1) : Inv c ts s1 := by
  obtain ⟨hc, hp, htasks, hconc, hcap, htot, hcoll, hwlen, hwle, hwg, hlg, hjoin, hgone,
    htclosed, hrclosed, hmu, hcomp, hfin, hexit, hfresh, acct⟩ := h
  obtain ⟨sched, taskChan, main, coll, workers, clock, panicked⟩ := s
  obtain ⟨tasks, results, conc, wg, mu, completed, totalTasks, resultChan⟩ := sched
  simp only at hm
  subst hm
  simp only at hp htasks hconc
  subst hp htasks hconc
  simp only [RunStep, Sys.die] at hs
  split at hs
  · exfalso
    simp_all
    omega
  · simp only [Option.some.injEq] at hs
    subst hs
    simp_all
    constructor <;> first
      | assumption
      | omega
      | (intro f _; have hf := acct f; simp; omega)
      | (simp [*]; done)
      | (simp [*]; omega)
      | (intros; simp_all; done)
      | (intros; simp_all; omega)

theorem Inv_main_spawn (c : Int) (ts : List Task) (s s1 : Sys) (h : Inv c ts s) (i : Nat)
    (hm : s.main = MainPc.spawn i) (hs : RunStep s = some s1) : Inv c ts s1 := by
  obtain ⟨hc, hp, htasks, hconc, hcap, htot, hcoll, hwlen, hwle, hwg, hlg, hjoin, hgone,
    htclosed, hrclosed, hmu, hcomp, hfin, hexit, hfresh, acct⟩ := h
  obtain ⟨sched, taskChan, main, coll, workers, clock, panicked⟩ := s
  obtain ⟨tasks, results, conc, wg, mu, completed, totalTasks, resultChan⟩ := sched
  simp only at hm
  subst hm
  simp only at hp htasks hconc
  subst hp htasks hconc
  simp only [RunStep, Sys.die] at hs
  split at hs
  · simp only [Option.some.injEq] at hs
    subst hs
    simp_all
    constructor <;> first
      | assumption
      | omega
      | (intro f _; have hf := acct f; simp; omega)
      | (simp [*]; done)
      | (simp [*]; omega)
      | (intros; simp_all; done)
      | (intros; simp_all; omega)
  · simp only [Option.some.injEq] at hs
    subst hs
    simp_all
    constructor <;> first
      | assumption
      | omega
      | (intro f _; have hf := acct f; simp; omega)
      | (simp [*]; done)
      | (simp [*]; omega)
      | (intros; simp_all; done)
      | (intros; simp_all; omega)

theorem Inv_main_push (c : Int) (ts : List Task) (s s1 : Sys) (h : Inv c ts s) (k : Nat)
    (hm : s.main = MainPc.push k) (hs : RunStep s = some s1) : Inv c ts s1 := by
  obtain ⟨hc, hp, htasks, hconc, hcap, htot, hcoll, hwlen, hwle, hwg, hlg, hjoin, hgone,
    htclosed, hrclosed, hmu, hcomp, hfin, hexit, hfresh, acct⟩ := h
  obtain ⟨sched, taskChan, main, coll, workers, clock, panicked⟩ := s
  obtain ⟨tasks, results, conc, wg, mu, completed, totalTasks, resultChan⟩ := sched
  simp only at hm
  subst hm
  simp only at hp htasks hconc
  subst hp htasks hconc
  simp only [RunStep, Sys.die] at hs
  split at hs
  · rename_i task htask
    have hdrop := drop_of_getElem? _ _ _ htask
    have hlen := acct (fun _ => 1)
    simp only [taskWeight_one, resWeight_one] at hlen
    split at hs
    · simp_all
    · split at hs
      · simp only [Option.some.injEq] at hs
        subst hs
        simp_all
        constructor <;> first
          | assumption
          | omega
          | (intro f _; have hf := acct f; simp; omega)
          | (simp [*]; done)
          | (simp [*]; omega)
          | (intros; simp_all; done)
          | (intros; simp_all; omega)
      · simp at hs
  · rename_i hnone
    have hd : tasks.drop k = [] := List.drop_eq_nil_of_le (by simpa using hnone)
    simp only [Option.some.injEq] at hs
    subst hs
    simp_all
    constructor <;> first
      | assumption
      | omega
      | (intro f _; have hf := acct f; simp; omega)
      | (simp [*]; done)
      | (simp [*]; omega)
      | (intros; simp_all; done)
      | (intros; simp_all; omega)

theorem Inv_main_closeTasks (c : Int) (ts : List Task) (s s1 : Sys) (h : Inv c ts s)
    (hm : s.main = MainPc.closeTasks) (hs : RunStep s = some s1) : Inv c ts s1 := by
  obtain ⟨hc, hp, htasks, hconc, hcap, htot, hcoll, hwlen, hwle, hwg, hlg, hjoin, hgone,
    htclosed, hrclosed, hmu, hcomp, hfin, hexit, hfresh, acct⟩ := h
  obtain ⟨sched, taskChan, main, coll, workers, clock, panicked⟩ := s
  obtain ⟨tasks, results, conc, wg, mu, completed, totalTasks, resultChan⟩ := sched
  simp only at hm
  subst hm
  simp only at hp htasks hconc
  subst hp htasks hconc
  simp only [RunStep, Sys.die] at hs
  split at hs
  · simp_all
  · simp only [Option.some.injEq] at hs
    subst hs
    simp_all
    constructor <;> first
      | assumption
      | omega
      | (intro f _; have hf := acct f; simp; omega)
      | (simp [*]; done)
      | (simp [*]; omega)
      | (intros; simp_all; done)
      | (intros; simp_all; omega)

theorem Inv_main_wait (c : Int) (ts : List Task) (s s1 : Sys) (h : Inv c ts s)
    (hm : s.main = MainPc.wait) (hs : RunStep s = some s1) : Inv c ts s1 := by
  obtain ⟨hc, hp, htasks, hconc, hcap, htot, hcoll, hwlen, hwle, hwg, hlg, hjoin, hgone,
    htclosed, hrclosed, hmu, hcomp, hfin, hexit, hfresh, acct⟩ := h
  obtain ⟨sched, taskChan, main, coll, workers, clock, panicked⟩ := s
  obtain ⟨tasks, results, conc, wg, mu, completed, totalTasks, resultChan⟩ := sched
  simp only at hm
  subst hm
  simp only at hp htasks hconc
  subst hp htasks hconc
  simp only [RunStep, Sys.die] at hs
  split at hs
  · simp only [Option.some.injEq] at hs
    subst hs
    simp_all
    constructor <;> first
      | assumption
      | omega
      | (intro f _; have hf := acct f; simp; omega)
      | (simp [*]; done)
      | (simp [*]; omega)
      | (intros; simp_all; done)
      | (intros; simp_all; omega)
  · simp at hs

theorem Inv_main_closeResults (c : Int) (ts : List Task) (s s1 : Sys) (h : Inv c ts s)
    (hm : s.main = MainPc.closeResults) (hs : RunStep s = some s1) : Inv c ts s1 := by
  obtain ⟨hc, hp, htasks, hconc, hcap, htot, hcoll, hwlen, hwle, hwg, hlg, hjoin, hgone,
    htclosed, hrclosed, hmu, hcomp, hfin, hexit, hfresh, acct⟩ := h
  obtain ⟨sched, taskChan, main, coll, workers, clock, panicked⟩ := s
  obtain ⟨tasks, results, conc, wg, mu, completed, totalTasks, resultChan⟩ := sched
  simp only at hm
  subst hm
  simp only at hp htasks hconc
  subst hp htasks hconc
  simp only [RunStep, Sys.die] at hs
  split at hs
  · simp_all
  · simp only [Option.some.injEq] at hs
    subst hs
    simp_all
    constructor <;> first
      | assumption
      | omega
      | (intro f _; have hf := acct f; simp; omega)
      | (simp [*]; done)
      | (simp [*]; omega)
      | (intros; simp_all; done)
      | (intros; simp_all; omega)

theorem Inv_main_recvDone (c : Int) (ts : List Task) (s s1 : Sys) (h : Inv c ts s)
    (hm : s.main = MainPc.recvDone) (hs : RunStep s = some s1) : Inv c ts s1 := by
  obtain ⟨hc, hp, htasks, hconc, hcap, htot, hcoll, hwlen, hwle, hwg, hlg, hjoin, hgone,
    htclosed, hrclosed, hmu, hcomp, hfin, hexit, hfresh, acct⟩ := h
  obtain ⟨sched, taskChan, main, coll, workers, clock, panicked⟩ := s
  obtain ⟨tasks, results, conc, wg, mu, completed, totalTasks, resultChan⟩ := sched
  simp only at hm
  subst hm
  simp only at hp htasks hconc
  subst hp htasks hconc
  simp only [RunStep, Sys.die] at hs
  split at hs
  · simp only [Option.some.injEq] at hs
    subst hs
    simp_all
    constructor <;> first
      | assumption
      | omega
      | (intro f _; have hf := acct f; simp; omega)
      | (simp [*]; done)
      | (simp [*]; omega)
      | (intros; simp_all; done)
      | (intros; simp_all; omega)
  · simp at hs

/-- Every statement of `Run` keeps the invariant. -/
theorem Inv_RunStep (c : Int) (ts : List Task) (s s1 : Sys) (h : Inv c ts s)
    (hs : RunStep s = some s1) : Inv c ts s1 := by
  cases hm : s.main with
  | start => exact Inv_main_start c ts s s1 h hm hs
  | spawnCollector => exact Inv_main_spawnCollector c ts s s1 h hm hs
  | wgAdd => exact Inv_main_wgAdd c ts s s1 h hm hs
  | spawn i => exact Inv_main_spawn c ts s s1 h i hm hs
  | push k => exact Inv_main_push c ts s s1 h k hm hs
  | closeTasks => exact Inv_main_closeTasks c ts s s1 h hm hs
  | wait => exact Inv_main_wait c ts s s1 h hm hs
  | closeResults => exact Inv_main_closeResults c ts s s1 h hm hs
  | recvDone => exact Inv_main_recvDone c ts s s1 h hm hs
  | returned => simp [RunStep, hm] at hs

theorem unspawned_nonneg (c : Int) (m : MainPc) (h : m.spawned c ≤ c) : 0 ≤ m.unspawned c := by
  cases m <;> simp at h ⊢
  omega

theorem spawned_stage0 (c : Int) (m : MainPc) (h : m.stage = 0) : m.spawned c = 0 := by
  cases m <;> simp at h ⊢

/-! ## Every statement of `resultCollector` keeps the invariant -/

theorem Inv_coll_recv (c : Int) (ts : List Task) (s s1 : Sys) (h : Inv c ts s)
    (hk : s.collector = some CollectorPc.recv) (hs : resultCollectorStep s = some s1) :
    Inv c ts s1 := by
  obtain ⟨hc, hp, htasks, hconc, hcap, htot, hcoll, hwlen, hwle, hwg, hlg, hjoin, hgone,
    htclosed, hrclosed, hmu, hcomp, hfin, hexit, hfresh, acct⟩ := h
  obtain ⟨sched, taskChan, main, coll, workers, clock, panicked⟩ := s
  obtain ⟨tasks, results, conc, wg, mu, completed, totalTasks, resultChan⟩ := sched
  obtain ⟨tcap, tbuf, tclosed⟩ := taskChan
  obtain ⟨rcap, rbuf, rclosed⟩ := resultChan
  dsimp only at hk
  subst hk
  dsimp only at hp htasks hconc hcap htot hcoll hwlen hwle hwg hlg hjoin hgone
  dsimp only at htclosed hrclosed hmu hcomp hfin hexit hfresh acct
  subst hp htasks hconc
  simp only [resultCollectorStep, Sys.die] at hs
  split at hs
  · rename_i xb r rest
    simp only [Option.some.injEq] at hs
    subst hs
    constructor <;> dsimp only [] <;> first
      | assumption
      | omega
      | (intro f h1
         have hf := acct f h1
         simp only [collHeld, collLocked, collUncounted, collFinished, resWeight_cons,
           resWeight_snoc, resWeight_nil] at hf ⊢
         omega)
      | (simp [*] at hcoll hexit hfin hfresh hcomp hmu ⊢; done)
      | (simp [*] at hcoll hexit hfin hfresh hcomp hmu ⊢; intros; omega)
  · split at hs
    · simp only [Option.some.injEq] at hs
      subst hs
      constructor <;> dsimp only [] <;> first
        | assumption
        | omega
        | (intro f h1
           have hf := acct f h1
           simp only [collHeld, collLocked, collUncounted, collFinished, resWeight_cons,
             resWeight_snoc, resWeight_nil] at hf ⊢
           omega)
        | (simp [*] at hcoll hexit hfin hfresh hcomp hmu ⊢; done)
        | (simp [*] at hcoll hexit hfin hfresh hcomp hmu ⊢; intros; omega)
    · simp at hs

theorem Inv_coll_lock (c : Int) (ts : List Task) (s s1 : Sys) (h : Inv c ts s) (r : TaskResult)
    (hk : s.collector = some (CollectorPc.lock r)) (hs : resultCollectorStep s = some s1) :
    Inv c ts s1 := by
  obtain ⟨hc, hp, htasks, hconc, hcap, htot, hcoll, hwlen, hwle, hwg, hlg, hjoin, hgone,
    htclosed, hrclosed, hmu, hcomp, hfin, hexit, hfresh, acct⟩ := h
  obtain ⟨sched, taskChan, main, coll, workers, clock, panicked⟩ := s
  obtain ⟨tasks, results, conc, wg, mu, completed, totalTasks, resultChan⟩ := sched
  obtain ⟨tcap, tbuf, tclosed⟩ := taskChan
  obtain ⟨rcap, rbuf, rclosed⟩ := resultChan
  dsimp only at hk
  subst hk
  dsimp only at hp htasks hconc hcap htot hcoll hwlen hwle hwg hlg hjoin hgone
  dsimp only at htclosed hrclosed hmu hcomp hfin hexit hfresh acct
  subst hp htasks hconc
  simp only [resultCollectorStep, Sys.die] at hs
  split at hs
  · simp at hs
  · simp only [Option.some.injEq] at hs
    subst hs
    constructor <;> dsimp only [] <;> first
      | assumption
      | omega
      | (intro f h1
         have hf := acct f h1
         simp only [collHeld, collLocked, collUncounted, collFinished, resWeight_cons,
           resWeight_snoc, resWeight_nil] at hf ⊢
         omega)
      | (simp [*] at hcoll hexit hfin hfresh hcomp hmu ⊢; done)
      | (simp [*] at hcoll hexit hfin hfresh hcomp hmu ⊢; intros; omega)

theorem Inv_coll_append (c : Int) (ts : List Task) (s s1 : Sys) (h : Inv c ts s) (r : TaskResult)
    (hk : s.collector = some (CollectorPc.append r)) (hs : resultCollectorStep s = some s1) :
    Inv c ts s1 := by
  obtain ⟨hc, hp, htasks, hconc, hcap, htot, hcoll, hwlen, hwle, hwg, hlg, hjoin, hgone,
    htclosed, hrclosed, hmu, hcomp, hfin, hexit, hfresh, acct⟩ := h
  obtain ⟨sched, taskChan, main, coll, workers, clock, panicked⟩ := s
  obtain ⟨tasks, results, conc, wg, mu, completed, totalTasks, resultChan⟩ := sched
  obtain ⟨tcap, tbuf, tclosed⟩ := taskChan
  obtain ⟨rcap, rbuf, rclosed⟩ := resultChan
  dsimp only at hk
  subst hk
  dsimp only at hp htasks hconc hcap htot hcoll hwlen hwle hwg hlg hjoin hgone
  dsimp only at htclosed hrclosed hmu hcomp hfin hexit hfresh acct
  subst hp htasks hconc
  simp only [resultCollectorStep, Sys.die] at hs
  simp only [Option.some.injEq] at hs
  subst hs
  constructor <;> dsimp only [] <;> first
    | assumption
    | omega
    | (intro f h1
       have hf := acct f h1
       simp only [collHeld, collLocked, collUncounted, collFinished, resWeight_cons,
         resWeight_snoc, resWeight_nil] at hf ⊢
       omega)
    | (simp [*] at hcoll hexit hfin hfresh hcomp hmu ⊢; done)
    | (simp [*] at hcoll hexit hfin hfresh hcomp hmu ⊢; intros; omega)

theorem Inv_coll_incr (c : Int) (ts : List Task) (s s1 : Sys) (h : Inv c ts s)
    (hk : s.collector = some CollectorPc.incr) (hs : resultCollectorStep s = some s1) :
    Inv c ts s1 := by
  obtain ⟨hc, hp, htasks, hconc, hcap, htot, hcoll, hwlen, hwle, hwg, hlg, hjoin, hgone,
    htclosed, hrclosed, hmu, hcomp, hfin, hexit, hfresh, acct⟩ := h
  obtain ⟨sched, taskChan, main, coll, workers, clock, panicked⟩ := s
  obtain ⟨tasks, results, conc, wg, mu, completed, totalTasks, resultChan⟩ := sched
  obtain ⟨tcap, tbuf, tclosed⟩ := taskChan
  obtain ⟨rcap, rbuf, rclosed⟩ := resultChan
  dsimp only at hk
  subst hk
  dsimp only at hp htasks hconc hcap htot hcoll hwlen hwle hwg hlg hjoin hgone
  dsimp only at htclosed hrclosed hmu hcomp hfin hexit hfresh acct
  subst hp htasks hconc
  simp only [resultCollectorStep, Sys.die] at hs
  simp only [Option.some.injEq] at hs
  subst hs
  constructor <;> dsimp only [] <;> first
    | assumption
    | omega
    | (intro f h1
       have hf := acct f h1
       simp only [collHeld, collLocked, collUncounted, collFinished, resWeight_cons,
         resWeight_snoc, resWeight_nil] at hf ⊢
       omega)
    | (simp [*] at hcoll hexit hfin hfresh hcomp hmu ⊢; done)
    | (simp [*] at hcoll hexit hfin hfresh hcomp hmu ⊢; intros; omega)

theorem Inv_coll_unlock (c : Int) (ts : List Task) (s s1 : Sys) (h : Inv c ts s)
    (hk : s.collector = some CollectorPc.unlock) (hs : resultCollectorStep s = some s1) :
    Inv c ts s1 := by
  obtain ⟨hc, hp, htasks, hconc, hcap, htot, hcoll, hwlen, hwle, hwg, hlg, hjoin, hgone,
    htclosed, hrclosed, hmu, hcomp, hfin, hexit, hfresh, acct⟩ := h
  obtain ⟨sched, taskChan, main, coll, workers, clock, panicked⟩ := s
  obtain ⟨tasks, results, conc, wg, mu, completed, totalTasks, resultChan⟩ := sched
  obtain ⟨tcap, tbuf, tclosed⟩ := taskChan
  obtain ⟨rcap, rbuf, rclosed⟩ := resultChan
  dsimp only at hk
  subst hk
  dsimp only at hp htasks hconc hcap htot hcoll hwlen hwle hwg hlg hjoin hgone
  dsimp only at htclosed hrclosed hmu hcomp hfin hexit hfresh acct
  subst hp htasks hconc
  simp only [resultCollectorStep, Sys.die] at hs
  simp only [Option.some.injEq] at hs
  subst hs
  constructor <;> dsimp only [] <;> first
    | assumption
    | omega
    | (intro f h1
       have hf := acct f h1
       simp only [collHeld, collLocked, collUncounted, collFinished, resWeight_cons,
         resWeight_snoc, resWeight_nil] at hf ⊢
       omega)
    | (simp [*] at hcoll hexit hfin hfresh hcomp hmu ⊢; done)
    | (simp [*] at hcoll hexit hfin hfresh hcomp hmu ⊢; intros; omega)

/-- Every statement of `resultCollector` keeps the invariant. -/
theorem Inv_resultCollectorStep (c : Int) (ts : List Task) (s s1 : Sys) (h : Inv c ts s)
    (hs : resultCollectorStep s = some s1) : Inv c ts s1 := by
  cases hk : s.collector with
  | none => simp [resultCollectorStep, hk] at hs
  | some pc =>
    cases pc with
    | recv => exact Inv_coll_recv c ts s s1 h hk hs
    | lock r => exact Inv_coll_lock c ts s s1 h r hk hs
    | append r => exact Inv_coll_append c ts s s1 h r hk hs
    | incr => exact Inv_coll_incr c ts s s1 h hk hs
    | unlock => exact Inv_coll_unlock c ts s s1 h hk hs
    | sendDone => simp [resultCollectorStep, hk] at hs
    | exited => simp [resultCollectorStep, hk] at hs

/-! ## Every statement of `worker` keeps the invariant -/

theorem Inv_worker_idle (c : Int) (ts : List Task) (s s1 : Sys) (h : Inv c ts s)
    (i : Nat) (err : GoError)
    (hw : s.workers[i]? = some WorkerPc.idle)
    (hs : workerStep s i err = some s1) : Inv c ts s1 := by
  obtain ⟨hc, hp, htasks, hconc, hcap, htot, hcoll, hwlen, hwle, hwg, hlg, hjoin, hgone,
    htclosed, hrclosed, hmu, hcomp, hfin, hexit, hfresh, acct⟩ := h
  obtain ⟨sched, taskChan, main, coll, workers, clock, panicked⟩ := s
  obtain ⟨tasks, results, conc, wg, mu, completed, totalTasks, resultChan⟩ := sched
  obtain ⟨tcap, tbuf, tclosed⟩ := taskChan
  obtain ⟨rcap, rbuf, rclosed⟩ := resultChan
  dsimp only at hw
  dsimp only at hp htasks hconc hcap htot hcoll hwlen hwle hwg hlg hjoin hgone
  dsimp only at htclosed hrclosed hmu hcomp hfin hexit hfresh acct
  subst hp htasks hconc
  simp only [workerStep, hw, Sys.die] at hs
  split at hs
  · rename_i xb task rest
    simp only [Option.some.injEq] at hs
    subst hs
    have hl := wsum_set WorkerPc.live workers i _
      (WorkerPc.fetched task) hw
    have hg := wsum_set WorkerPc.gone workers i _
      (WorkerPc.fetched task) hw
    have hh := fun f => wsum_set (WorkerPc.held f) workers i _
      (WorkerPc.fetched task) hw
    simp only [WorkerPc.live, WorkerPc.gone, WorkerPc.held, mkResult_name] at hl hg hh
    have hpos : i < workers.length := (List.getElem?_eq_some.mp hw).1
    clear hw
    constructor <;> dsimp only [] <;> first
      | assumption
      | omega
      | (simp only [List.length_set]; omega)
      | (intro f h1
         have hf := acct f h1
         have hh1 := hh f
         simp only [taskWeight_cons, resWeight_snoc] at hf ⊢
         omega)
      | (intro h1
         have h2 := hgone (by omega)
         first | exact h2 | exact absurd h2.2 (List.cons_ne_nil _ _))
      | (intro h1; exact ⟨by assumption, rfl⟩)
      | (intro h1; exact absurd (hfin h1).1 (by assumption))
      | (intro h1; have h2 := spawned_stage0 conc main h1; omega)
  · split at hs
    · split at hs
      · exfalso
        have hl := wsum_set WorkerPc.live workers i _ WorkerPc.exited hw
        have hu := unspawned_nonneg _ _ hwle
        simp only [WorkerPc.live] at hl
        omega
      · simp only [Option.some.injEq] at hs
        subst hs
        have hl := wsum_set WorkerPc.live workers i _
          WorkerPc.exited hw
        have hg := wsum_set WorkerPc.gone workers i _
          WorkerPc.exited hw
        have hh := fun f => wsum_set (WorkerPc.held f) workers i _
          WorkerPc.exited hw
        simp only [WorkerPc.live, WorkerPc.gone, WorkerPc.held, mkResult_name] at hl hg hh
        have hpos : i < workers.length := (List.getElem?_eq_some.mp hw).1
        clear hw
        constructor <;> dsimp only [] <;> first
          | assumption
          | omega
          | (simp only [List.length_set]; omega)
          | (intro f h1
             have hf := acct f h1
             have hh1 := hh f
             simp only [taskWeight_cons, resWeight_snoc] at hf ⊢
             omega)
          | (intro h1
             have h2 := hgone (by omega)
             first | exact h2 | exact absurd h2.2 (List.cons_ne_nil _ _))
          | (intro h1; exact ⟨by assumption, rfl⟩)
          | (intro h1; exact absurd (hfin h1).1 (by assumption))
          | (intro h1; have h2 := spawned_stage0 conc main h1; omega)
    · simp at hs

theorem Inv_worker_fetched (c : Int) (ts : List Task) (s s1 : Sys) (h : Inv c ts s)
    (i : Nat) (err : GoError) (task : Task)
    (hw : s.workers[i]? = some (WorkerPc.fetched task))
    (hs : workerStep s i err = some s1) : Inv c ts s1 := by
  obtain ⟨hc, hp, htasks, hconc, hcap, htot, hcoll, hwlen, hwle, hwg, hlg, hjoin, hgone,
    htclosed, hrclosed, hmu, hcomp, hfin, hexit, hfresh, acct⟩ := h
  obtain ⟨sched, taskChan, main, coll, workers, clock, panicked⟩ := s
  obtain ⟨tasks, results, conc, wg, mu, completed, totalTasks, resultChan⟩ := sched
  obtain ⟨tcap, tbuf, tclosed⟩ := taskChan
  obtain ⟨rcap, rbuf, rclosed⟩ := resultChan
  dsimp only at hw
  dsimp only at hp htasks hconc hcap htot hcoll hwlen hwle hwg hlg hjoin hgone
  dsimp only at htclosed hrclosed hmu hcomp hfin hexit hfresh acct
  subst hp htasks hconc
  simp only [workerStep, hw, Sys.die] at hs
  simp only [Option.some.injEq] at hs
  subst hs
  have hl := wsum_set WorkerPc.live workers i _
    (WorkerPc.executing task clock) hw
  have hg := wsum_set WorkerPc.gone workers i _
    (WorkerPc.executing task clock) hw
  have hh := fun f => wsum_set (WorkerPc.held f) workers i _
    (WorkerPc.executing task clock) hw
  simp only [WorkerPc.live, WorkerPc.gone, WorkerPc.held, mkResult_name] at hl hg hh
  have hpos : i < workers.length := (List.getElem?_eq_some.mp hw).1
  clear hw
  constructor <;> dsimp only [] <;> first
    | assumption
    | omega
    | (simp only [List.length_set]; omega)
    | (intro f h1
       have hf := acct f h1
       have hh1 := hh f
       simp only [taskWeight_cons, resWeight_snoc] at hf ⊢
       omega)
    | (intro h1
       have h2 := hgone (by omega)
       first | exact h2 | exact absurd h2.2 (List.cons_ne_nil _ _))
    | (intro h1; exact ⟨by assumption, rfl⟩)
    | (intro h1; exact absurd (hfin h1).1 (by assumption))
    | (intro h1; have h2 := spawned_stage0 conc main h1; omega)

theorem Inv_worker_executing (c : Int) (ts : List Task) (s s1 : Sys) (h : Inv c ts s)
    (i : Nat) (err : GoError) (task : Task) (start : Int)
    (hw : s.workers[i]? = some (WorkerPc.executing task start))
    (hs : workerStep s i err = some s1) : Inv c ts s1 := by
  obtain ⟨hc, hp, htasks, hconc, hcap, htot, hcoll, hwlen, hwle, hwg, hlg, hjoin, hgone,
    htclosed, hrclosed, hmu, hcomp, hfin, hexit, hfresh, acct⟩ := h
  obtain ⟨sched, taskChan, main, coll, workers, clock, panicked⟩ := s
  obtain ⟨tasks, results, conc, wg, mu, completed, totalTasks, resultChan⟩ := sched
  obtain ⟨tcap, tbuf, tclosed⟩ := taskChan
  obtain ⟨rcap, rbuf, rclosed⟩ := resultChan
  dsimp only at hw
  dsimp only at hp htasks hconc hcap htot hcoll hwlen hwle hwg hlg hjoin hgone
  dsimp only at htclosed hrclosed hmu hcomp hfin hexit hfresh acct
  subst hp htasks hconc
  simp only [workerStep, hw, Sys.die] at hs
  simp only [Option.some.injEq] at hs
  subst hs
  have hl := wsum_set WorkerPc.live workers i _
    (WorkerPc.returned task start err) hw
  have hg := wsum_set WorkerPc.gone workers i _
    (WorkerPc.returned task start err) hw
  have hh := fun f => wsum_set (WorkerPc.held f) workers i _
    (WorkerPc.returned task start err) hw
  simp only [WorkerPc.live, WorkerPc.gone, WorkerPc.held, mkResult_name] at hl hg hh
  have hpos : i < workers.length := (List.getElem?_eq_some.mp hw).1
  clear hw
  constructor <;> dsimp only [] <;> first
    | assumption
    | omega
    | (simp only [List.length_set]; omega)
    | (intro f h1
       have hf := acct f h1
       have hh1 := hh f
       simp only [taskWeight_cons, resWeight_snoc] at hf ⊢
       omega)
    | (intro h1
       have h2 := hgone (by omega)
       first | exact h2 | exact absurd h2.2 (List.cons_ne_nil _ _))
    | (intro h1; exact ⟨by assumption, rfl⟩)
    | (intro h1; exact absurd (hfin h1).1 (by assumption))
    | (intro h1; have h2 := spawned_stage0 conc main h1; omega)

theorem Inv_worker_returned (c : Int) (ts : List Task) (s s1 : Sys) (h : Inv c ts s)
    (i : Nat) (err : GoError) (task : Task) (start : Int) (e : GoError)
    (hw : s.workers[i]? = some (WorkerPc.returned task start e))
    (hs : workerStep s i err = some s1) : Inv c ts s1 := by
  obtain ⟨hc, hp, htasks, hconc, hcap, htot, hcoll, hwlen, hwle, hwg, hlg, hjoin, hgone,
    htclosed, hrclosed, hmu, hcomp, hfin, hexit, hfresh, acct⟩ := h
  obtain ⟨sched, taskChan, main, coll, workers, clock, panicked⟩ := s
  obtain ⟨tasks, results, conc, wg, mu, completed, totalTasks, resultChan⟩ := sched
  obtain ⟨tcap, tbuf, tclosed⟩ := taskChan
  obtain ⟨rcap, rbuf, rclosed⟩ := resultChan
  dsimp only at hw
  dsimp only at hp htasks hconc hcap htot hcoll hwlen hwle hwg hlg hjoin hgone
  dsimp only at htclosed hrclosed hmu hcomp hfin hexit hfresh acct
  subst hp htasks hconc
  simp only [workerStep, hw, Sys.die] at hs
  simp only [Option.some.injEq] at hs
  subst hs
  have hl := wsum_set WorkerPc.live workers i _
    (WorkerPc.measured task start e (timeSince clock start)) hw
  have hg := wsum_set WorkerPc.gone workers i _
    (WorkerPc.measured task start e (timeSince clock start)) hw
  have hh := fun f => wsum_set (WorkerPc.held f) workers i _
    (WorkerPc.measured task start e (timeSince clock start)) hw
  simp only [WorkerPc.live, WorkerPc.gone, WorkerPc.held, mkResult_name] at hl hg hh
  have hpos : i < workers.length := (List.getElem?_eq_some.mp hw).1
  clear hw
  constructor <;> dsimp only [] <;> first
    | assumption
    | omega
    | (simp only [List.length_set]; omega)
    | (intro f h1
       have hf := acct f h1
       have hh1 := hh f
       simp only [taskWeight_cons, resWeight_snoc] at hf ⊢
       omega)
    | (intro h1
       have h2 := hgone (by omega)
       first | exact h2 | exact absurd h2.2 (List.cons_ne_nil _ _))
    | (intro h1; exact ⟨by assumption, rfl⟩)
    | (intro h1; exact absurd (hfin h1).1 (by assumption))
    | (intro h1; have h2 := spawned_stage0 conc main h1; omega)

theorem Inv_worker_measured (c : Int) (ts : List Task) (s s1 : Sys) (h : Inv c ts s)
    (i : Nat) (err : GoError) (task : Task) (start : Int) (e : GoError) (d : Int)
    (hw : s.workers[i]? = some (WorkerPc.measured task start e d))
    (hs : workerStep s i err = some s1) : Inv c ts s1 := by
  obtain ⟨hc, hp, htasks, hconc, hcap, htot, hcoll, hwlen, hwle, hwg, hlg, hjoin, hgone,
    htclosed, hrclosed, hmu, hcomp, hfin, hexit, hfresh, acct⟩ := h
  obtain ⟨sched, taskChan, main, coll, workers, clock, panicked⟩ := s
  obtain ⟨tasks, results, conc, wg, mu, completed, totalTasks, resultChan⟩ := sched
  obtain ⟨tcap, tbuf, tclosed⟩ := taskChan
  obtain ⟨rcap, rbuf, rclosed⟩ := resultChan
  dsimp only at hw
  dsimp only at hp htasks hconc hcap htot hcoll hwlen hwle hwg hlg hjoin hgone
  dsimp only at htclosed hrclosed hmu hcomp hfin hexit hfresh acct
  subst hp htasks hconc
  simp only [workerStep, hw, Sys.die] at hs
  simp only [Option.some.injEq] at hs
  subst hs
  have hl := wsum_set WorkerPc.live workers i _
    (WorkerPc.publishing (mkResult task start e d clock)) hw
  have hg := wsum_set WorkerPc.gone workers i _
    (WorkerPc.publishing (mkResult task start e d clock)) hw
  have hh := fun f => wsum_set (WorkerPc.held f) workers i _
    (WorkerPc.publishing (mkResult task start e d clock)) hw
  simp only [WorkerPc.live, WorkerPc.gone, WorkerPc.held, mkResult_name] at hl hg hh
  have hpos : i < workers.length := (List.getElem?_eq_some.mp hw).1
  clear hw
  constructor <;> dsimp only [] <;> first
    | assumption
    | omega
    | (simp only [List.length_set]; omega)
    | (intro f h1
       have hf := acct f h1
       have hh1 := hh f
       simp only [taskWeight_cons, resWeight_snoc] at hf ⊢
       omega)
    | (intro h1
       have h2 := hgone (by omega)
       first | exact h2 | exact absurd h2.2 (List.cons_ne_nil _ _))
    | (intro h1; exact ⟨by assumption, rfl⟩)
    | (intro h1; exact absurd (hfin h1).1 (by assumption))
    | (intro h1; have h2 := spawned_stage0 conc main h1; omega)

theorem Inv_worker_publishing (c : Int) (ts : List Task) (s s1 : Sys) (h : Inv c ts s)
    (i : Nat) (err : GoError) (r : TaskResult)
    (hw : s.workers[i]? = some (WorkerPc.publishing r))
    (hs : workerStep s i err = some s1) : Inv c ts s1 := by
  obtain ⟨hc, hp, htasks, hconc, hcap, htot, hcoll, hwlen, hwle, hwg, hlg, hjoin, hgone,
    htclosed, hrclosed, hmu, hcomp, hfin, hexit, hfresh, acct⟩ := h
  obtain ⟨sched, taskChan, main, coll, workers, clock, panicked⟩ := s
  obtain ⟨tasks, results, conc, wg, mu, completed, totalTasks, resultChan⟩ := sched
  obtain ⟨tcap, tbuf, tclosed⟩ := taskChan
  obtain ⟨rcap, rbuf, rclosed⟩ := resultChan
  dsimp only at hw
  dsimp only at hp htasks hconc hcap htot hcoll hwlen hwle hwg hlg hjoin hgone
  dsimp only at htclosed hrclosed hmu hcomp hfin hexit hfresh acct
  subst hp htasks hconc
  simp only [workerStep, hw, Sys.die] at hs
  split at hs
  · exfalso
    rename_i hclosed
    have hl := wsum_set WorkerPc.live workers i _ WorkerPc.exited hw
    have h8 := hrclosed.mp hclosed
    have h0 := hjoin (by omega)
    simp only [WorkerPc.live] at hl
    omega
  · split at hs
    · simp only [Option.some.injEq] at hs
      subst hs
      have hl := wsum_set WorkerPc.live workers i _
        WorkerPc.idle hw
      have hg := wsum_set WorkerPc.gone workers i _
        WorkerPc.idle hw
      have hh := fun f => wsum_set (WorkerPc.held f) workers i _
        WorkerPc.idle hw
      simp only [WorkerPc.live, WorkerPc.gone, WorkerPc.held, mkResult_name] at hl hg hh
      have hpos : i < workers.length := (List.getElem?_eq_some.mp hw).1
      clear hw
      constructor <;> dsimp only [] <;> first
        | assumption
        | omega
        | (simp only [List.length_set]; omega)
        | (intro f h1
           have hf := acct f h1
           have hh1 := hh f
           simp only [taskWeight_cons, resWeight_snoc] at hf ⊢
           omega)
        | (intro h1
           have h2 := hgone (by omega)
           first | exact h2 | exact absurd h2.2 (List.cons_ne_nil _ _))
        | (intro h1; exact ⟨by assumption, rfl⟩)
        | (intro h1; exact absurd (hfin h1).1 (by assumption))
        | (intro h1; have h2 := spawned_stage0 conc main h1; omega)
    · simp at hs

/-- Every statement of `worker` keeps the invariant. -/
theorem Inv_workerStep (c : Int) (ts : List Task) (s s1 : Sys) (h : Inv c ts s)
    (i : Nat) (err : GoError) (hs : workerStep s i err = some s1) : Inv c ts s1 := by
  cases hw : s.workers[i]? with
  | none => simp [workerStep, hw] at hs
  | some pc =>
    cases pc with
    | idle => exact Inv_worker_idle c ts s s1 h i err hw hs
    | fetched t => exact Inv_worker_fetched c ts s s1 h i err t hw hs
    | executing t st => exact Inv_worker_executing c ts s s1 h i err t st hw hs
    | returned t st e => exact Inv_worker_returned c ts s s1 h i err t st e hw hs
    | measured t st e d => exact Inv_worker_measured c ts s s1 h i err t st e d hw hs
    | publishing r => exact Inv_worker_publishing c ts s s1 h i err r hw hs
    | exited => simp [workerStep, hw] at hs

/-! ## The invariant holds in every state a first `Run` reaches -/

theorem Inv_tick (c : Int) (ts : List Task) (s : Sys) (d : Nat) (h : Inv c ts s) :
    Inv c ts { s with clock := s.clock + d } := by
  obtain ⟨hc, hp, htasks, hconc, hcap, htot, hcoll, hwlen, hwle, hwg, hlg, hjoin, hgone,
    htclosed, hrclosed, hmu, hcomp, hfin, hexit, hfresh, acct⟩ := h
  constructor <;> assumption

theorem Inv_step (c : Int) (ts : List Task) (s s1 : Sys) (a : Action) (h : Inv c ts s)
    (hs : step s a = some s1) : Inv c ts s1 := by
  unfold step at hs
  rw [h.hp] at hs
  cases a with
  | tick d =>
    simp only [Option.some.injEq] at hs
    subst hs
    have ht := Inv_tick c ts s d h
    rw [h.hp] at ht
    exact ht
  | main => exact Inv_RunStep c ts s s1 h hs
  | collector => exact Inv_resultCollectorStep c ts s s1 h hs
  | worker i err => exact Inv_workerStep c ts s s1 h i err hs

theorem Inv_exec (c : Int) (ts : List Task) (acts : List Action) :
    ∀ (s s1 : Sys), Inv c ts s → exec s acts = some s1 → Inv c ts s1 := by
  induction acts with
  | nil =>
    intro s s1 h hs
    simp only [exec, Option.some.injEq] at hs
    subst hs
    exact h
  | cons a rest ih =>
    intro s s1 h hs
    simp only [exec] at hs
    cases hst : step s a with
    | none => simp [hst] at hs
    | some s2 =>
      simp only [hst] at hs
      exact ih s2 s1 (Inv_step c ts s s2 a h hst) hs

/-- Every state a first `Run` reaches satisfies the invariant. -/
theorem Inv_reach (c : Int) (hc : 0 ≤ c) (ts : List Task) (now : Int)
    (acts : List Action) (s : Sys)
    (hs : exec (runInit (submitAll (NewScheduler c) ts) now) acts = some s) : Inv c ts s :=
  Inv_exec c ts acts _ s (Inv_runInit c hc ts now) hs

/-! ## What the invariant says when `Run` has returned -/

theorem held_zero_of_live_zero (f : String → Nat) :
    ∀ l : List WorkerPc, wsum WorkerPc.live l = 0 → wsum (WorkerPc.held f) l = 0
  | [], _ => rfl
  | w :: l, h => by
    rw [wsum_cons] at h ⊢
    have ih := held_zero_of_live_zero f l (by omega)
    cases w <;> simp at h ⊢ <;> omega

theorem running_le_live : ∀ l : List WorkerPc, wsum WorkerPc.running l ≤ wsum WorkerPc.live l
  | [] => Nat.le_refl _
  | w :: l => by
    rw [wsum_cons, wsum_cons]
    have ih := running_le_live l
    cases w <;> simp <;> omega

/-- After `Run` with at least one worker, the results carry the same total
weight as the submitted tasks, for every weighting of names. -/
theorem Inv_returned_weight (c : Int) (ts : List Task) (s : Sys) (h : Inv c ts s)
    (hc1 : 1 ≤ c) (hm : s.main = MainPc.returned) (f : String → Nat) :
    resWeight f s.sched.results = taskWeight f ts := by
  have hst : s.main.stage = 9 := by rw [hm]; rfl
  have hlive := h.hjoin (by omega)
  have hheld := held_zero_of_live_zero f s.workers hlive
  have hlen := h.hwlen
  have hlg := h.hlg
  rw [hm] at hlen
  simp only [MainPc.spawned] at hlen
  have hg := h.hgone (by omega)
  have hk := h.hexit.mpr hst
  have hf := h.hfin (by rw [hk]; rfl)
  have ha := h.acct f (by omega)
  rw [hm, hk, hg.2, hf.2, hheld] at ha
  simpa using ha

theorem wsum_ge (f : WorkerPc → Nat) :
    ∀ (l : List WorkerPc) (i : Nat) (w : WorkerPc), l[i]? = some w → f w ≤ wsum f l
  | [], i, w, h => by simp at h
  | v :: l, 0, w, h => by
    simp at h
    subst h
    simp
  | v :: l, i + 1, w, h => by
    simp at h
    have ih := wsum_ge f l i w h
    simp
    omega

theorem wsum_set_eq (f : WorkerPc → Nat) (l : List WorkerPc) (i : Nat) (w x : WorkerPc)
    (h : l[i]? = some w) : wsum f (l.set i x) = wsum f l - f w + f x := by
  have h1 := wsum_set f l i w x h
  have h2 := wsum_ge f l i w h
  omega

/-! ## Every statement uses up some of the work that is left -/

theorem workLeft_RunStep (s s1 : Sys) (hs : RunStep s = some s1)
    (hp : s1.panicked = none) : workLeft s1 < workLeft s := by
  obtain ⟨sched, taskChan, main, coll, workers, clock, panicked⟩ := s
  obtain ⟨tasks, results, conc, wg, mu, completed, totalTasks, resultChan⟩ := sched
  obtain ⟨tcap, tbuf, tclosed⟩ := taskChan
  obtain ⟨rcap, rbuf, rclosed⟩ := resultChan
  cases main <;> simp only [RunStep, Sys.die] at hs
  case push k =>
    split at hs
    · rename_i task htask
      have hk : k < tasks.length := (List.getElem?_eq_some.mp htask).1
      split at hs
      · simp only [Option.some.injEq] at hs
        subst hs
        simp at hp
      · split at hs
        · simp only [Option.some.injEq] at hs
          subst hs
          simp [workLeft]
          omega
        · simp at hs
    · simp only [Option.some.injEq] at hs
      subst hs
      simp [workLeft]
      omega
  all_goals (repeat' split at hs)
  all_goals first
    | (simp at hs; done)
    | (simp only [Option.some.injEq] at hs; subst hs; first
        | (simp at hp; done)
        | (simp [workLeft, Chan.make] <;> omega))

theorem workLeft_resultCollectorStep (s s1 : Sys) (hs : resultCollectorStep s = some s1) :
    workLeft s1 < workLeft s := by
  obtain ⟨sched, taskChan, main, coll, workers, clock, panicked⟩ := s
  obtain ⟨tasks, results, conc, wg, mu, completed, totalTasks, resultChan⟩ := sched
  obtain ⟨tcap, tbuf, tclosed⟩ := taskChan
  obtain ⟨rcap, rbuf, rclosed⟩ := resultChan
  simp only [resultCollectorStep] at hs
  repeat' split at hs
  all_goals first
    | (simp at hs; done)
    | (simp only [Option.some.injEq] at hs; subst hs; simp [workLeft] <;> omega)

theorem workLeft_workerStep (s s1 : Sys) (i : Nat) (err : GoError)
    (hs : workerStep s i err = some s1) (hp : s1.panicked = none) :
    workLeft s1 < workLeft s := by
  obtain ⟨sched, taskChan, main, coll, workers, clock, panicked⟩ := s
  obtain ⟨tasks, results, conc, wg, mu, completed, totalTasks, resultChan⟩ := sched
  obtain ⟨tcap, tbuf, tclosed⟩ := taskChan
  obtain ⟨rcap, rbuf, rclosed⟩ := resultChan
  simp only [workerStep, Sys.die] at hs
  split at hs
  · simp at hs
  all_goals (rename_i hw; have hge := wsum_ge WorkerPc.rank workers i _ hw)
  all_goals (repeat' split at hs)
  all_goals first
    | (simp at hs; done)
    | (simp only [Option.some.injEq] at hs; subst hs; first
        | (simp at hp; done)
        | (simp [workLeft, wsum_set_eq WorkerPc.rank workers i _ _ hw] at hge ⊢
           omega))

theorem step_not_panicked (s s1 : Sys) (a : Action) (hs : step s a = some s1) :
    s.panicked = none := by
  unfold step at hs
  cases hp : s.panicked with
  | none => rfl
  | some p => simp [hp] at hs

theorem step_of_not_panicked (s : Sys) (a : Action) (hp : s.panicked = none) :
    step s a =
      match a with
      | Action.tick d => some { s with clock := s.clock + d }
      | Action.main => RunStep s
      | Action.collector => resultCollectorStep s
      | Action.worker i err => workerStep s i err := by
  unfold step
  cases a <;> simp [hp]

/-- A statement of a goroutine that does not kill the process uses up work. -/
theorem workLeft_step (s s1 : Sys) (a : Action) (hs : step s a = some s1)
    (ha : a.isStmt = true) (hp : s1.panicked = none) : workLeft s1 < workLeft s := by
  rw [step_of_not_panicked s a (step_not_panicked s s1 a hs)] at hs
  cases a with
  | tick d => simp [Action.isStmt] at ha
  | main => exact workLeft_RunStep s s1 hs hp
  | collector => exact workLeft_resultCollectorStep s s1 hs
  | worker i err => exact workLeft_workerStep s s1 i err hs hp

/-- The passing of time leaves the work that is left unchanged. -/
theorem workLeft_tick (s s1 : Sys) (d : Nat) (hs : step s (Action.tick d) = some s1) :
    workLeft s1 = workLeft s := by
  rw [step_of_not_panicked s _ (step_not_panicked s s1 _ hs)] at hs
  simp only [Option.some.injEq] at hs
  subst hs
  rfl

theorem exec_not_panicked (acts : List Action) (s s1 : Sys) (hs : exec s acts = some s1)
    (hp : s1.panicked = none) : s.panicked = none := by
  cases acts with
  | nil =>
    simp only [exec, Option.some.injEq] at hs
    subst hs
    exact hp
  | cons a rest =>
    simp only [exec] at hs
    cases hst : step s a with
    | none => simp [hst] at hs
    | some s2 => exact step_not_panicked s s2 a hst

/-- A schedule that ends in a live process executes no more goroutine
statements than the work that was left at its start. -/
theorem stmtCount_le_workLeft (acts : List Action) :
    ∀ (s s1 : Sys), exec s acts = some s1 → s1.panicked = none →
      stmtCount acts + workLeft s1 ≤ workLeft s := by
  induction acts with
  | nil =>
    intro s s1 hs _
    simp only [exec, Option.some.injEq] at hs
    subst hs
    simp [stmtCount]
  | cons a rest ih =>
    intro s s1 hs hp
    simp only [exec] at hs
    cases hst : step s a with
    | none => simp [hst] at hs
    | some s2 =>
      simp only [hst] at hs
      have h2 := ih s2 s1 hs hp
      have hp2 := exec_not_panicked rest s2 s1 hs hp
      cases hk : a.isStmt with
      | true =>
        have h3 := workLeft_step s s2 a hst hk hp2
        simp only [stmtCount, List.countP_cons, hk] at h2 ⊢
        simp
        omega
      | false =>
        cases a with
        | tick d =>
          have h3 := workLeft_tick s s2 d hst
          simp only [stmtCount, List.countP_cons, hk] at h2 ⊢
          simp
          omega
        | main => simp [Action.isStmt] at hk
        | collector => simp [Action.isStmt] at hk
        | worker i err => simp [Action.isStmt] at hk

theorem exists_live : ∀ l : List WorkerPc, 0 < wsum WorkerPc.live l →
    ∃ (i : Nat) (w : WorkerPc), l[i]? = some w ∧ w ≠ WorkerPc.exited
  | [], h => by simp at h
  | w :: l, h => by
    by_cases hw : w = WorkerPc.exited
    · subst hw
      simp at h
      obtain ⟨i, v, h1, h2⟩ := exists_live l h
      exact ⟨i + 1, v, by simpa using h1, h2⟩
    · exact ⟨0, w, by simp, hw⟩

theorem exec_append (a1 : List Action) :
    ∀ (a2 : List Action) (s s1 s2 : Sys), exec s a1 = some s1 → exec s1 a2 = some s2 →
      exec s (a1 ++ a2) = some s2 := by
  induction a1 with
  | nil =>
    intro a2 s s1 s2 h1 h2
    simp only [exec, Option.some.injEq] at h1
    subst h1
    simpa using h2
  | cons a rest ih =>
    intro a2 s s1 s2 h1 h2
    simp only [exec, List.cons_append] at h1 ⊢
    cases hst : step s a with
    | none => simp [hst] at h1
    | some s3 =>
      simp only [hst] at h1 ⊢
      exact ih a2 s3 s1 s2 h1 h2

/-! ## A first `Run` never deadlocks -/

theorem can_main (s : Sys) (hp : s.panicked = none) (h : ∃ s1, RunStep s = some s1) :
    ∃ a s1, Action.isStmt a = true ∧ step s a = some s1 := by
  obtain ⟨s1, h1⟩ := h
  exact ⟨Action.main, s1, rfl, by rw [step_of_not_panicked s _ hp]; exact h1⟩

theorem can_collector (s s1 : Sys) (hp : s.panicked = none) (h : resultCollectorStep s = some s1) :
    ∃ a s1, Action.isStmt a = true ∧ step s a = some s1 :=
  ⟨Action.collector, s1, rfl, by rw [step_of_not_panicked s _ hp]; exact h⟩

theorem can_worker (s s1 : Sys) (i : Nat) (hp : s.panicked = none)
    (h : workerStep s i none = some s1) :
    ∃ a s1, Action.isStmt a = true ∧ step s a = some s1 :=
  ⟨Action.worker i none, s1, rfl, by rw [step_of_not_panicked s _ hp]; exact h⟩

/-- The collector can take a step when it is in its loop and a result is
buffered or the channel is closed. -/
theorem collector_enabled (s : Sys) (pc : CollectorPc) (hk : s.collector = some pc)
    (hmu : s.sched.mu = collLocked s.collector)
    (hne : pc ≠ CollectorPc.sendDone) (hnx : pc ≠ CollectorPc.exited)
    (hbuf : s.sched.resultChan.buf ≠ [] ∨ s.sched.resultChan.closed = true) :
    ∃ s1, resultCollectorStep s = some s1 := by
  unfold resultCollectorStep
  rw [hk] at hmu ⊢
  cases pc with
  | recv =>
    cases hb : s.sched.resultChan.buf with
    | nil =>
      have hcl : s.sched.resultChan.closed = true := by
        cases hbuf with
        | inl h => exact absurd hb h
        | inr h => exact h
      simp [hcl]
    | cons r rest => simp
  | lock r =>
    simp only [collLocked] at hmu
    simp [hmu]
  | append r => simp
  | incr => simp
  | unlock => simp
  | sendDone => exact absurd rfl hne
  | exited => exact absurd rfl hnx

/-- A live worker can take a step once the task channel is closed, unless it
waits at a full, open result channel. -/
theorem worker_enabled (s : Sys) (i : Nat) (w : WorkerPc) (hw : s.workers[i]? = some w)
    (hlive : w ≠ WorkerPc.exited) (hcl : s.taskChan.closed = true)
    (hroom : s.sched.resultChan.closed = true ∨
      s.sched.resultChan.buf.length < s.sched.resultChan.cap) :
    ∃ s1, workerStep s i none = some s1 := by
  unfold workerStep
  rw [hw]
  cases w with
  | idle =>
    cases hb : s.taskChan.buf with
    | nil =>
      simp only [hcl, if_true]
      split <;> simp
    | cons t rest => simp
  | fetched t => simp
  | executing t st => simp
  | returned t st e => simp
  | measured t st e d => simp
  | publishing r =>
    cases hroom with
    | inl h => simp [h]
    | inr h =>
      simp only [h, if_true]
      split <;> simp
  | exited => exact absurd rfl hlive

/-- In every state of a first `Run` in which `Run` has not returned, some
goroutine can execute a statement. -/
theorem Inv_progress (c : Int) (ts : List Task) (s : Sys) (h : Inv c ts s)
    (hm : s.main ≠ MainPc.returned) :
    ∃ a s1, Action.isStmt a = true ∧ step s a = some s1 := by
  have hp := h.hp
  cases hmain : s.main with
  | start => exact can_main s hp (by simp only [RunStep, hmain]; exact ⟨_, rfl⟩)
  | spawnCollector => exact can_main s hp (by simp only [RunStep, hmain]; exact ⟨_, rfl⟩)
  | wgAdd =>
    by_cases hneg : s.sched.wg + s.sched.concurrency < 0
    · exact can_main s hp (by simp only [RunStep, hmain, hneg, if_true]; exact ⟨_, rfl⟩)
    · exact can_main s hp (by simp only [RunStep, hmain, hneg, if_false]; exact ⟨_, rfl⟩)
  | spawn i =>
    by_cases hlt : (i : Int) < s.sched.concurrency
    · exact can_main s hp (by simp only [RunStep, hmain, hlt, if_true]; exact ⟨_, rfl⟩)
    · exact can_main s hp (by simp only [RunStep, hmain, hlt, if_false]; exact ⟨_, rfl⟩)
  | push k =>
    cases htask : s.sched.tasks[k]? with
    | none => exact can_main s hp (by simp only [RunStep, hmain, htask]; exact ⟨_, rfl⟩)
    | some task =>
      have hcl : s.taskChan.closed = false := by
        have := h.htclosed
        rw [hmain] at this
        simp at this
        exact this
      have hk : k < s.sched.tasks.length := (List.getElem?_eq_some.mp htask).1
      have hlen := h.acct (fun _ => 1) (by rw [hmain]; simp)
      have hcap := (h.htot (by rw [hmain]; simp)).2
      rw [hmain] at hlen
      simp only [taskWeight_one, resWeight_one, MainPc.pending, List.length_drop] at hlen
      have hts := h.htasks
      have hroom : s.taskChan.buf.length < s.taskChan.cap := by
        rw [hcap, ← hts]
        rw [← hts] at hlen
        omega
      exact can_main s hp (by simp [RunStep, hmain, htask, hcl, hroom])
  | closeTasks =>
    by_cases hcl : s.taskChan.closed = true
    · exact can_main s hp (by simp only [RunStep, hmain, hcl, if_true]; exact ⟨_, rfl⟩)
    · exact can_main s hp (by simp only [RunStep, hmain, hcl, if_false]; exact ⟨_, rfl⟩)
  | wait =>
    by_cases hw0 : s.sched.wg = 0
    · exact can_main s hp (by simp only [RunStep, hmain, hw0, if_true]; exact ⟨_, rfl⟩)
    · have hwg := h.hwg
      rw [hmain] at hwg
      simp only [MainPc.unspawned] at hwg
      obtain ⟨i, w, hw, hlive⟩ := exists_live s.workers (by omega)
      have htc : s.taskChan.closed = true := h.htclosed.mpr (by rw [hmain]; simp)
      by_cases hroom : s.sched.resultChan.closed = true ∨
          s.sched.resultChan.buf.length < s.sched.resultChan.cap
      · obtain ⟨s1, hs1⟩ := worker_enabled s i w hw hlive htc hroom
        exact can_worker s s1 i hp hs1
      · have hcap := h.hcap
        have hne : s.sched.resultChan.buf ≠ [] := by
          intro he
          apply hroom
          right
          rw [he, hcap]
          simp
        cases hk : s.collector with
        | none =>
          have := h.hcoll.mp hk
          rw [hmain] at this
          simp at this
        | some pc =>
          have hnf : collFinished s.collector ≠ true := fun hf => hne (h.hfin hf).2
          obtain ⟨s1, hs1⟩ := collector_enabled s pc hk h.hmu
            (by intro he; apply hnf; rw [hk, he]; rfl)
            (by intro he; apply hnf; rw [hk, he]; rfl) (Or.inl hne)
          exact can_collector s s1 hp hs1
  | closeResults =>
    by_cases hcl : s.sched.resultChan.closed = true
    · exact can_main s hp (by simp only [RunStep, hmain, hcl, if_true]; exact ⟨_, rfl⟩)
    · exact can_main s hp (by simp only [RunStep, hmain, hcl, if_false]; exact ⟨_, rfl⟩)
  | recvDone =>
    have hrc : s.sched.resultChan.closed = true := h.hrclosed.mpr (by rw [hmain]; simp)
    cases hk : s.collector with
    | none =>
      have := h.hcoll.mp hk
      rw [hmain] at this
      simp at this
    | some pc =>
      by_cases hsd : pc = CollectorPc.sendDone
      · subst hsd
        exact can_main s hp (by simp only [RunStep, hmain, hk]; exact ⟨_, rfl⟩)
      · have hnx : pc ≠ CollectorPc.exited := by
          intro he
          subst he
          have := h.hexit.mp hk
          rw [hmain] at this
          simp at this
        obtain ⟨s1, hs1⟩ := collector_enabled s pc hk h.hmu hsd hnx (Or.inr hrc)
        exact can_collector s s1 hp hs1
  | returned => exact absurd hmain hm

/-- A first `Run` returns: from every state it reaches, some continuation of
the schedule makes `Run` return. -/
theorem Inv_returns (c : Int) (ts : List Task) :
    ∀ (n : Nat) (s : Sys), workLeft s ≤ n → Inv c ts s →
      ∃ acts s1, exec s acts = some s1 ∧ s1.main = MainPc.returned := by
  intro n
  induction n with
  | zero =>
    intro s hn h
    by_cases hm : s.main = MainPc.returned
    · exact ⟨[], s, rfl, hm⟩
    · obtain ⟨a, s1, ha, hs⟩ := Inv_progress c ts s h hm
      have h1 := Inv_step c ts s s1 a h hs
      have := workLeft_step s s1 a hs ha h1.hp
      omega
  | succ n ih =>
    intro s hn h
    by_cases hm : s.main = MainPc.returned
    · exact ⟨[], s, rfl, hm⟩
    · obtain ⟨a, s1, ha, hs⟩ := Inv_progress c ts s h hm
      have h1 := Inv_step c ts s s1 a h hs
      have hlt := workLeft_step s s1 a hs ha h1.hp
      obtain ⟨acts, s2, he, hr⟩ := ih s1 (by omega) h1
      exact ⟨a :: acts, s2, by simp only [exec, hs]; exact he, hr⟩

/-! ## The invariant of a second `Run` -/

theorem Inv2_main_start (c : Int) (ts : List Task) (s s1 : Sys) (h : Inv2 c ts s)
    (hp0 : s.panicked = none)
    (hm : s.main = MainPc.start) (hs : RunStep s = some s1) : Inv2 c ts s1 := by
  obtain ⟨hc, hp, htasks, hconc, htot, hwlen, hwle, hwg, htclosed, hrclosed, hrbuf, hstage,
    hcoll, hcollst, hcomp, hlen⟩ := h
  obtain ⟨sched, taskChan, main, coll, workers, clock, panicked⟩ := s
  obtain ⟨tasks, results, conc, wg, mu, completed, totalTasks, resultChan⟩ := sched
  obtain ⟨tcap, tbuf, tclosed⟩ := taskChan
  obtain ⟨rcap, rbuf, rclosed⟩ := resultChan
  dsimp only at hp0
  subst hp0
  dsimp only at hm
  subst hm
  dsimp only at hp htasks hconc htot hwlen hwle hwg htclosed hrclosed hrbuf
  dsimp only at hstage hcoll hcollst hcomp hlen
  subst htasks hconc hrclosed hrbuf
  simp only [RunStep, Sys.die] at hs
  simp only [Option.some.injEq] at hs
  subst hs
  simp_all [Chan.make]
  constructor <;> first
    | assumption
    | omega
    | (simp [*, Chan.make]; done)
    | (simp [*, Chan.make]; omega)
    | (intros; simp_all; done)
    | (intros; simp_all; omega)

theorem Inv2_main_spawnCollector (c : Int) (ts : List Task) (s s1 : Sys) (h : Inv2 c ts s)
    (hp0 : s.panicked = none)
    (hm : s.main = MainPc.spawnCollector) (hs : RunStep s = some s1) : Inv2 c ts s1 := by
  obtain ⟨hc, hp, htasks, hconc, htot, hwlen, hwle, hwg, htclosed, hrclosed, hrbuf, hstage,
    hcoll, hcollst, hcomp, hlen⟩ := h
  obtain ⟨sched, taskChan, main, coll, workers, clock, panicked⟩ := s
  obtain ⟨tasks, results, conc, wg, mu, completed, totalTasks, resultChan⟩ := sched
  obtain ⟨tcap, tbuf, tclosed⟩ := taskChan
  obtain ⟨rcap, rbuf, rclosed⟩ := resultChan
  dsimp only at hp0
  subst hp0
  dsimp only at hm
  subst hm
  dsimp only at hp htasks hconc htot hwlen hwle hwg htclosed hrclosed hrbuf
  dsimp only at hstage hcoll hcollst hcomp hlen
  subst htasks hconc hrclosed hrbuf
  simp only [RunStep, Sys.die] at hs
  simp only [Option.some.injEq] at hs
  subst hs
  simp_all
  constructor <;> first
    | assumption
    | omega
    | (simp [*]; done)
    | (simp [*]; omega)
    | (intros; simp_all; done)
    | (intros; simp_all; omega)

theorem Inv2_main_wgAdd (c : Int) (ts : List Task) (s s1 : Sys) (h : Inv2 c ts s)
    (hp0 : s.panicked = none)
    (hm : s.main = MainPc.wgAdd) (hs : RunStep s = some s1) : Inv2 c ts s1 := by
  obtain ⟨hc, hp, htasks, hconc, htot, hwlen, hwle, hwg, htclosed, hrclosed, hrbuf, hstage,
    hcoll, hcollst, hcomp, hlen⟩ := h
  obtain ⟨sched, taskChan, main, coll, workers, clock, panicked⟩ := s
  obtain ⟨tasks, results, conc, wg, mu, completed, totalTasks, resultChan⟩ := sched
  obtain ⟨tcap, tbuf, tclosed⟩ := taskChan
  obtain ⟨rcap, rbuf, rclosed⟩ := resultChan
  dsimp only at hp0
  subst hp0
  dsimp only at hm
  subst hm
  dsimp only at hp htasks hconc htot hwlen hwle hwg htclosed hrclosed hrbuf
  dsimp only at hstage hcoll hcollst hcomp hlen
  subst htasks hconc hrclosed hrbuf
  simp only [RunStep, Sys.die] at hs
  split at hs
  · exfalso
    simp_all
    omega
  · simp only [Option.some.injEq] at hs
    subst hs
    simp_all
    constructor <;> first
      | assumption
      | omega
      | (simp [*]; done)
      | (simp [*]; omega)
      | (intros; simp_all; done)
      | (intros; simp_all; omega)

theorem Inv2_main_spawn (c : Int) (ts : List Task) (s s1 : Sys) (h : Inv2 c ts s)
    (hp0 : s.panicked = none) (i : Nat)
    (hm : s.main = MainPc.spawn i) (hs : RunStep s = some s1) : Inv2 c ts s1 := by
  obtain ⟨hc, hp, htasks, hconc, htot, hwlen, hwle, hwg, htclosed, hrclosed, hrbuf, hstage,
    hcoll, hcollst, hcomp, hlen⟩ := h
  obtain ⟨sched, taskChan, main, coll, workers, clock, panicked⟩ := s
  obtain ⟨tasks, results, conc, wg, mu, completed, totalTasks, resultChan⟩ := sched
  obtain ⟨tcap, tbuf, tclosed⟩ := taskChan
  obtain ⟨rcap, rbuf, rclosed⟩ := resultChan
  dsimp only at hp0
  subst hp0
  dsimp only at hm
  subst hm
  dsimp only at hp htasks hconc htot hwlen hwle hwg htclosed hrclosed hrbuf
  dsimp only at hstage hcoll hcollst hcomp hlen
  subst htasks hconc hrclosed hrbuf
  simp only [RunStep, Sys.die] at hs
  split at hs
  · simp only [Option.some.injEq] at hs
    subst hs
    simp_all
    constructor <;> first
      | assumption
      | omega
      | (simp [*]; done)
      | (simp [*]; omega)
      | (intros; simp_all; done)
      | (intros; simp_all; omega)
  · simp only [Option.some.injEq] at hs
    subst hs
    simp_all
    constructor <;> first
      | assumption
      | omega
      | (simp [*]; done)
      | (simp [*]; omega)
      | (intros; simp_all; done)
      | (intros; simp_all; omega)

theorem Inv2_main_push (c : Int) (ts : List Task) (s s1 : Sys) (h : Inv2 c ts s)
    (hp0 : s.panicked = none) (k : Nat)
    (hm : s.main = MainPc.push k) (hs : RunStep s = some s1) : Inv2 c ts s1 := by
  obtain ⟨hc, hp, htasks, hconc, htot, hwlen, hwle, hwg, htclosed, hrclosed, hrbuf, hstage,
    hcoll, hcollst, hcomp, hlen⟩ := h
  obtain ⟨sched, taskChan, main, coll, workers, clock, panicked⟩ := s
  obtain ⟨tasks, results, conc, wg, mu, completed, totalTasks, resultChan⟩ := sched
  obtain ⟨tcap, tbuf, tclosed⟩ := taskChan
  obtain ⟨rcap, rbuf, rclosed⟩ := resultChan
  dsimp only at hp0
  subst hp0
  dsimp only at hm
  subst hm
  dsimp only at hp htasks hconc htot hwlen hwle hwg htclosed hrclosed hrbuf
  dsimp only at hstage hcoll hcollst hcomp hlen
  subst htasks hconc hrclosed hrbuf
  simp only [RunStep, Sys.die] at hs
  split at hs
  · rename_i task htask
    have hk : k < tasks.length := (List.getElem?_eq_some.mp htask).1
    split at hs
    · simp_all
    · split at hs
      · simp only [Option.some.injEq] at hs
        subst hs
        simp_all
        constructor <;> first
          | assumption
          | omega
          | (simp [*]; done)
          | (simp [*]; omega)
          | (intros; simp_all; done)
          | (intros; simp_all; omega)
      · simp at hs
  · rename_i hnone
    have hd : tasks.length ≤ k := by simpa using hnone
    simp only [Option.some.injEq] at hs
    subst hs
    simp_all
    constructor <;> first
      | assumption
      | omega
      | (simp [*]; done)
      | (simp [*]; omega)
      | (intros; simp_all; done)
      | (intros; simp_all; omega)

theorem Inv2_main_closeTasks (c : Int) (ts : List Task) (s s1 : Sys) (h : Inv2 c ts s)
    (hp0 : s.panicked = none)
    (hm : s.main = MainPc.closeTasks) (hs : RunStep s = some s1) : Inv2 c ts s1 := by
  obtain ⟨hc, hp, htasks, hconc, htot, hwlen, hwle, hwg, htclosed, hrclosed, hrbuf, hstage,
    hcoll, hcollst, hcomp, hlen⟩ := h
  obtain ⟨sched, taskChan, main, coll, workers, clock, panicked⟩ := s
  obtain ⟨tasks, results, conc, wg, mu, completed, totalTasks, resultChan⟩ := sched
  obtain ⟨tcap, tbuf, tclosed⟩ := taskChan
  obtain ⟨rcap, rbuf, rclosed⟩ := resultChan
  dsimp only at hp0
  subst hp0
  dsimp only at hm
  subst hm
  dsimp only at hp htasks hconc htot hwlen hwle hwg htclosed hrclosed hrbuf
  dsimp only at hstage hcoll hcollst hcomp hlen
  subst htasks hconc hrclosed hrbuf
  simp only [RunStep, Sys.die] at hs
  split at hs
  · simp_all
  · simp only [Option.some.injEq] at hs
    subst hs
    simp_all
    constructor <;> first
      | assumption
      | omega
      | (simp [*]; done)
      | (simp [*]; omega)
      | (intros; simp_all; done)
      | (intros; simp_all; omega)

theorem Inv2_main_wait (c : Int) (ts : List Task) (s s1 : Sys) (h : Inv2 c ts s)
    (hp0 : s.panicked = none)
    (hm : s.main = MainPc.wait) (hs : RunStep s = some s1) : Inv2 c ts s1 := by
  obtain ⟨hc, hp, htasks, hconc, htot, hwlen, hwle, hwg, htclosed, hrclosed, hrbuf, hstage,
    hcoll, hcollst, hcomp, hlen⟩ := h
  obtain ⟨sched, taskChan, main, coll, workers, clock, panicked⟩ := s
  obtain ⟨tasks, results, conc, wg, mu, completed, totalTasks, resultChan⟩ := sched
  obtain ⟨tcap, tbuf, tclosed⟩ := taskChan
  obtain ⟨rcap, rbuf, rclosed⟩ := resultChan
  dsimp only at hp0
  subst hp0
  dsimp only at hm
  subst hm
  dsimp only at hp htasks hconc htot hwlen hwle hwg htclosed hrclosed hrbuf
  dsimp only at hstage hcoll hcollst hcomp hlen
  subst htasks hconc hrclosed hrbuf
  simp only [RunStep, Sys.die] at hs
  split at hs
  · simp only [Option.some.injEq] at hs
    subst hs
    simp_all
    constructor <;> first
      | assumption
      | omega
      | (simp [*]; done)
      | (simp [*]; omega)
      | (intros; simp_all; done)
      | (intros; simp_all; omega)
  · simp at hs

theorem Inv2_main_closeResults (c : Int) (ts : List Task) (s s1 : Sys) (h : Inv2 c ts s)
    (hp0 : s.panicked = none)
    (hm : s.main = MainPc.closeResults) (hs : RunStep s = some s1) : Inv2 c ts s1 := by
  obtain ⟨hc, hp, htasks, hconc, htot, hwlen, hwle, hwg, htclosed, hrclosed, hrbuf, hstage,
    hcoll, hcollst, hcomp, hlen⟩ := h
  obtain ⟨sched, taskChan, main, coll, workers, clock, panicked⟩ := s
  obtain ⟨tasks, results, conc, wg, mu, completed, totalTasks, resultChan⟩ := sched
  obtain ⟨tcap, tbuf, tclosed⟩ := taskChan
  obtain ⟨rcap, rbuf, rclosed⟩ := resultChan
  dsimp only at hp0
  subst hp0
  dsimp only at hm
  subst hm
  dsimp only at hp htasks hconc htot hwlen hwle hwg htclosed hrclosed hrbuf
  dsimp only at hstage hcoll hcollst hcomp hlen
  subst htasks hconc hrclosed hrbuf
  simp only [RunStep, Sys.die] at hs
  simp only [if_true] at hs
  simp only [Option.some.injEq] at hs
  subst hs
  simp_all
  constructor <;> first
    | assumption
    | omega
    | (simp [*]; done)
    | (simp [*]; omega)
    | (intros; simp_all; done)
    | (intros; simp_all; omega)

/-- Every statement of `Run` keeps the invariant of a second `Run`. -/
theorem Inv2_RunStep (c : Int) (ts : List Task) (s s1 : Sys) (h : Inv2 c ts s)
    (hp0 : s.panicked = none) (hs : RunStep s = some s1) : Inv2 c ts s1 := by
  cases hm : s.main with
  | start => exact Inv2_main_start c ts s s1 h hp0 hm hs
  | spawnCollector => exact Inv2_main_spawnCollector c ts s s1 h hp0 hm hs
  | wgAdd => exact Inv2_main_wgAdd c ts s s1 h hp0 hm hs
  | spawn i => exact Inv2_main_spawn c ts s s1 h hp0 i hm hs
  | push k => exact Inv2_main_push c ts s s1 h hp0 k hm hs
  | closeTasks => exact Inv2_main_closeTasks c ts s s1 h hp0 hm hs
  | wait => exact Inv2_main_wait c ts s s1 h hp0 hm hs
  | closeResults => exact Inv2_main_closeResults c ts s s1 h hp0 hm hs
  | recvDone =>
    have := h.hstage
    rw [hm] at this
    simp at this
  | returned =>
    have := h.hstage
    rw [hm] at this
    simp at this

/-- Every statement of `resultCollector` keeps the invariant of a second `Run`. -/
theorem Inv2_resultCollectorStep (c : Int) (ts : List Task) (s s1 : Sys) (h : Inv2 c ts s)
    (hp0 : s.panicked = none) (hs : resultCollectorStep s = some s1) : Inv2 c ts s1 := by
  obtain ⟨hc, hp, htasks, hconc, htot, hwlen, hwle, hwg, htclosed, hrclosed, hrbuf, hstage,
    hcoll, hcollst, hcomp, hlen⟩ := h
  obtain ⟨sched, taskChan, main, coll, workers, clock, panicked⟩ := s
  obtain ⟨tasks, results, conc, wg, mu, completed, totalTasks, resultChan⟩ := sched
  obtain ⟨tcap, tbuf, tclosed⟩ := taskChan
  obtain ⟨rcap, rbuf, rclosed⟩ := resultChan
  dsimp only at hp0
  subst hp0
  dsimp only at hp htasks hconc htot hwlen hwle hwg htclosed hrclosed hrbuf
  dsimp only at hstage hcoll hcollst hcomp hlen
  subst htasks hconc hrclosed hrbuf
  rcases hcoll with hk | hk | hk
  · subst hk
    simp [resultCollectorStep] at hs
  · subst hk
    simp only [resultCollectorStep, if_true, Option.some.injEq] at hs
    subst hs
    constructor <;> dsimp only [] <;> first
      | assumption
      | (simp at hcollst ⊢; done)
      | (simp at hcollst ⊢; omega)
  · subst hk
    simp [resultCollectorStep] at hs

/-- Every statement of `worker` keeps the invariant of a second `Run`. -/
theorem Inv2_workerStep (c : Int) (ts : List Task) (s s1 : Sys) (h : Inv2 c ts s)
    (hp0 : s.panicked = none) (i : Nat) (err : GoError)
    (hs : workerStep s i err = some s1) : Inv2 c ts s1 := by
  obtain ⟨hc, hp, htasks, hconc, htot, hwlen, hwle, hwg, htclosed, hrclosed, hrbuf, hstage,
    hcoll, hcollst, hcomp, hlen⟩ := h
  obtain ⟨sched, taskChan, main, coll, workers, clock, panicked⟩ := s
  obtain ⟨tasks, results, conc, wg, mu, completed, totalTasks, resultChan⟩ := sched
  obtain ⟨tcap, tbuf, tclosed⟩ := taskChan
  obtain ⟨rcap, rbuf, rclosed⟩ := resultChan
  dsimp only at hp0
  subst hp0
  dsimp only at hp htasks hconc htot hwlen hwle hwg htclosed hrclosed hrbuf
  dsimp only at hstage hcoll hcollst hcomp hlen
  subst htasks hconc hrclosed hrbuf
  simp only [workerStep, Sys.die] at hs
  split at hs
  · simp at hs
  all_goals (rename_i hw; have hge := wsum_ge WorkerPc.live workers i _ hw)
  all_goals (repeat' split at hs)
  all_goals first
    | (simp at hs; done)
    | (exfalso
       have hu := unspawned_nonneg _ _ hwle
       simp only [WorkerPc.live] at hge
       omega)
    | (rename_i hT _; exact absurd trivial hT)
    | (simp only [Option.some.injEq] at hs
       subst hs
       constructor <;> dsimp only [] <;> first
        | assumption
        | (simp; done)
        | (simp only [List.length_set]; omega)
        | (simp only [wsum_set_eq WorkerPc.live workers i _ _ hw, WorkerPc.live] at hge ⊢
           omega)
        | (intro h1; have h2 := hlen h1; simp only [List.length_cons] at h2 ⊢; omega))

theorem Inv2_step (c : Int) (ts : List Task) (s s1 : Sys) (a : Action) (h : Inv2 c ts s)
    (hs : step s a = some s1) : Inv2 c ts s1 := by
  have hp0 := step_not_panicked s s1 a hs
  rw [step_of_not_panicked s a hp0] at hs
  cases a with
  | tick d =>
    simp only [Option.some.injEq] at hs
    subst hs
    obtain ⟨hc, hp, htasks, hconc, htot, hwlen, hwle, hwg, htclosed, hrclosed, hrbuf, hstage,
      hcoll, hcollst, hcomp, hlen⟩ := h
    constructor <;> assumption
  | main => exact Inv2_RunStep c ts s s1 h hp0 hs
  | collector => exact Inv2_resultCollectorStep c ts s s1 h hp0 hs
  | worker i err => exact Inv2_workerStep c ts s s1 h hp0 i err hs

theorem Inv2_exec (c : Int) (ts : List Task) (acts : List Action) :
    ∀ (s s1 : Sys), Inv2 c ts s → exec s acts = some s1 → Inv2 c ts s1 := by
  induction acts with
  | nil =>
    intro s s1 h hs
    simp only [exec, Option.some.injEq] at hs
    subst hs
    exact h
  | cons a rest ih =>
    intro s s1 h hs
    simp only [exec] at hs
    cases hst : step s a with
    | none => simp [hst] at hs
    | some s2 =>
      simp only [hst] at hs
      exact ih s2 s1 (Inv2_step c ts s s2 a h hst) hs

/-- When a first `Run` has returned, a further `Run` on the same scheduler
(after any further `AddTask` calls) starts in the invariant of a second `Run`. -/
theorem Inv2_runInit (c : Int) (ts : List Task) (s1 : Sys) (h : Inv c ts s1)
    (hm : s1.main = MainPc.returned) (extra : List Task) (now : Int) :
    Inv2 c (ts ++ extra) (runInit (submitAll s1.sched extra) now) := by
  have hst : s1.main.stage = 9 := by rw [hm]; rfl
  have hlive := h.hjoin (by omega)
  have hwg := h.hwg
  rw [hm, hlive] at hwg
  simp only [MainPc.unspawned] at hwg
  have hk := h.hexit.mpr hst
  have hf := h.hfin (by rw [hk]; rfl)
  rw [submitAll_eq]
  constructor <;> simp [runInit, Chan.make, h.hc, h.htasks, h.hconc, hwg, hf.1, hf.2]

/-- In every state of a second `Run` in which the process is alive, some
goroutine can execute a statement. -/
theorem Inv2_progress (c : Int) (ts : List Task) (s : Sys) (h : Inv2 c ts s)
    (hp : s.panicked = none) :
    ∃ a s1, Action.isStmt a = true ∧ step s a = some s1 := by
  have hstage := h.hstage
  cases hmain : s.main with
  | start => exact can_main s hp (by simp only [RunStep, hmain]; exact ⟨_, rfl⟩)
  | spawnCollector => exact can_main s hp (by simp only [RunStep, hmain]; exact ⟨_, rfl⟩)
  | wgAdd =>
    by_cases hneg : s.sched.wg + s.sched.concurrency < 0
    · exact can_main s hp (by simp only [RunStep, hmain, hneg, if_true]; exact ⟨_, rfl⟩)
    · exact can_main s hp (by simp only [RunStep, hmain, hneg, if_false]; exact ⟨_, rfl⟩)
  | spawn i =>
    by_cases hlt : (i : Int) < s.sched.concurrency
    · exact can_main s hp (by simp only [RunStep, hmain, hlt, if_true]; exact ⟨_, rfl⟩)
    · exact can_main s hp (by simp only [RunStep, hmain, hlt, if_false]; exact ⟨_, rfl⟩)
  | push k =>
    cases htask : s.sched.tasks[k]? with
    | none => exact can_main s hp (by simp only [RunStep, hmain, htask]; exact ⟨_, rfl⟩)
    | some task =>
      have hcl : s.taskChan.closed = false := by
        have := h.htclosed
        rw [hmain] at this
        simp at this
        exact this
      have hk : k < s.sched.tasks.length := (List.getElem?_eq_some.mp htask).1
      have hlen := h.hlen (by rw [hmain]; simp)
      have hcap := (h.htot (by rw [hmain]; simp)).2
      rw [hmain] at hlen
      simp only [MainPc.pending, List.length_drop] at hlen
      have hts := h.htasks
      have hroom : s.taskChan.buf.length < s.taskChan.cap := by
        rw [hcap, ← hts]
        rw [← hts] at hlen
        omega
      exact can_main s hp (by simp [RunStep, hmain, htask, hcl, hroom])
  | closeTasks =>
    by_cases hcl : s.taskChan.closed = true
    · exact can_main s hp (by simp only [RunStep, hmain, hcl, if_true]; exact ⟨_, rfl⟩)
    · exact can_main s hp (by simp only [RunStep, hmain, hcl, if_false]; exact ⟨_, rfl⟩)
  | wait =>
    by_cases hw0 : s.sched.wg = 0
    · exact can_main s hp (by simp only [RunStep, hmain, hw0, if_true]; exact ⟨_, rfl⟩)
    · have hwg := h.hwg
      rw [hmain] at hwg
      simp only [MainPc.unspawned] at hwg
      obtain ⟨i, w, hw, hlive⟩ := exists_live s.workers (by omega)
      have htc : s.taskChan.closed = true := h.htclosed.mpr (by rw [hmain]; simp)
      obtain ⟨s1, hs1⟩ := worker_enabled s i w hw hlive htc (Or.inl h.hrclosed)
      exact can_worker s s1 i hp hs1
  | closeResults =>
    exact can_main s hp (by simp only [RunStep, hmain, h.hrclosed, if_true]; exact ⟨_, rfl⟩)
  | recvDone =>
    rw [hmain] at hstage
    simp at hstage
  | returned =>
    rw [hmain] at hstage
    simp at hstage

/-- A second `Run` dies: from every state it reaches, some continuation of the
schedule ends in a panic. -/
theorem Inv2_dies (c : Int) (ts : List Task) :
    ∀ (n : Nat) (s : Sys), workLeft s ≤ n → Inv2 c ts s →
      ∃ acts s1, exec s acts = some s1 ∧ s1.panicked ≠ none := by
  intro n
  induction n with
  | zero =>
    intro s hn h
    by_cases hp : s.panicked = none
    · obtain ⟨a, s1, ha, hs⟩ := Inv2_progress c ts s h hp
      by_cases hp1 : s1.panicked = none
      · have := workLeft_step s s1 a hs ha hp1
        omega
      · exact ⟨[a], s1, by simp only [exec, hs], hp1⟩
    · exact ⟨[], s, rfl, hp⟩
  | succ n ih =>
    intro s hn h
    by_cases hp : s.panicked = none
    · obtain ⟨a, s1, ha, hs⟩ := Inv2_progress c ts s h hp
      by_cases hp1 : s1.panicked = none
      · have hlt := workLeft_step s s1 a hs ha hp1
        obtain ⟨acts, s2, he, hr⟩ := ih s1 (by omega) (Inv2_step c ts s s1 a h hs)
        exact ⟨a :: acts, s2, by simp only [exec, hs]; exact he, hr⟩
      · exact ⟨[a], s1, by simp only [exec, hs], hp1⟩
    · exact ⟨[], s, rfl, hp⟩

/-! ## Degenerate concurrency degrees -/

/-- The collector touches only the result channel, the mutex, `results` and
`completed`. -/
theorem resultCollectorStep_frame (s s1 : Sys) (hs : resultCollectorStep s = some s1) :
    s1.main = s.main ∧ s1.workers = s.workers ∧ s1.taskChan = s.taskChan ∧
      s1.sched.concurrency = s.sched.concurrency ∧ s1.sched.wg = s.sched.wg ∧
      s1.sched.tasks = s.sched.tasks ∧ s1.sched.totalTasks = s.sched.totalTasks ∧
      s1.panicked = s.panicked := by
  simp only [resultCollectorStep] at hs
  repeat' split at hs
  all_goals first
    | (simp at hs; done)
    | (simp only [Option.some.injEq] at hs; subst hs; simp)

theorem workerStep_no_workers (s : Sys) (i : Nat) (err : GoError) (h : s.workers = []) :
    workerStep s i err = none := by
  simp [workerStep, h]

theorem InvNeg_step (c : Int) (hc : c < 0) (s s1 : Sys) (a : Action) (h : InvNeg c s)
    (hs : step s a = some s1) : InvNeg c s1 := by
  have hp0 := step_not_panicked s s1 a hs
  rw [step_of_not_panicked s a hp0] at hs
  obtain ⟨hconc, hwg, hstage, hworkers⟩ := h
  cases a with
  | tick d =>
    simp only [Option.some.injEq] at hs
    subst hs
    exact ⟨hconc, hwg, hstage, hworkers⟩
  | main =>
    simp only [RunStep, Sys.die] at hs
    cases hm : s.main <;> rw [hm] at hs hstage <;> simp only [MainPc.stage] at hstage
    · simp only [Option.some.injEq] at hs
      subst hs
      exact ⟨hconc, hwg, by simp, hworkers⟩
    · simp only [Option.some.injEq] at hs
      subst hs
      exact ⟨hconc, hwg, by simp, hworkers⟩
    · have hneg : s.sched.wg + s.sched.concurrency < 0 := by omega
      simp only [hneg, if_true, Option.some.injEq] at hs
      subst hs
      exact ⟨hconc, hwg, by simp [hm], hworkers⟩
    all_goals omega
  | collector =>
    dsimp only at hs
    obtain ⟨h1, h2, _, h4, h5, _, _, _⟩ := resultCollectorStep_frame s s1 hs
    exact ⟨by rw [h4]; exact hconc, by rw [h5]; exact hwg, by rw [h1]; exact hstage,
      by rw [h2]; exact hworkers⟩
  | worker i err =>
    dsimp only at hs
    rw [workerStep_no_workers s i err hworkers] at hs
    cases hs

theorem InvNeg_exec (c : Int) (hc : c < 0) (acts : List Action) :
    ∀ (s s1 : Sys), InvNeg c s → exec s acts = some s1 → InvNeg c s1 := by
  induction acts with
  | nil =>
    intro s s1 h hs
    simp only [exec, Option.some.injEq] at hs
    subst hs
    exact h
  | cons a rest ih =>
    intro s s1 h hs
    simp only [exec] at hs
    cases hst : step s a with
    | none => simp [hst] at hs
    | some s2 =>
      simp only [hst] at hs
      exact ih s2 s1 (InvNeg_step c hc s s2 a h hst) hs

/-- A first `Run` that returns was given a concurrency of at least zero. -/
theorem conc_nonneg_of_returned (c : Int) (ts : List Task) (now : Int)
    (acts : List Action) (s : Sys)
    (hs : exec (runInit (submitAll (NewScheduler c) ts) now) acts = some s)
    (hm : s.main = MainPc.returned) : 0 ≤ c := by
  by_contra hneg
  have h0 : InvNeg c (runInit (submitAll (NewScheduler c) ts) now) := by
    rw [submitAll_new]
    exact ⟨rfl, rfl, by simp [runInit], rfl⟩
  have h1 := InvNeg_exec c (by omega) acts _ s h0 hs
  have := h1.hstage
  rw [hm] at this
  simp at this

theorem InvZero_step (s s1 : Sys) (a : Action) (h : InvZero s)
    (hs : step s a = some s1) : InvZero s1 := by
  have hp0 := step_not_panicked s s1 a hs
  rw [step_of_not_panicked s a hp0] at hs
  obtain ⟨hconc, hworkers, hrbuf, hres, hcomp, hcoll, hsent⟩ := h
  cases a with
  | tick d =>
    simp only [Option.some.injEq] at hs
    subst hs
    exact ⟨hconc, hworkers, hrbuf, hres, hcomp, hcoll, hsent⟩
  | main =>
    dsimp only at hs
    cases hm : s.main <;> simp only [RunStep, hm, Sys.die] at hs <;> rw [hm] at hsent <;>
      simp only [MainPc.pending] at hsent
    case push k =>
      split at hs
      · rename_i task htask
        have hk : k < s.sched.tasks.length := (List.getElem?_eq_some.mp htask).1
        repeat' split at hs
        all_goals first
          | (simp at hs; done)
          | (simp only [Option.some.injEq] at hs
             subst hs
             refine ⟨hconc, hworkers, hrbuf, hres, hcomp, hcoll, ?_⟩
             simp at hsent ⊢
             omega)
      · rename_i hnone
        have hd : s.sched.tasks.length ≤ k := by simpa using hnone
        simp only [Option.some.injEq] at hs
        subst hs
        refine ⟨hconc, hworkers, hrbuf, hres, hcomp, hcoll, ?_⟩
        simp at hsent ⊢
        omega
    case spawn i =>
      have hlt : ¬ ((i : Int) < s.sched.concurrency) := by
        rw [hconc]
        omega
      simp only [hlt, if_false, Option.some.injEq] at hs
      subst hs
      refine ⟨hconc, hworkers, hrbuf, hres, hcomp, hcoll, ?_⟩
      simpa using hsent
    all_goals (repeat' split at hs)
    all_goals first
      | (simp at hs; done)
      | (simp only [Option.some.injEq] at hs
         subst hs
         constructor <;> dsimp only [] <;> first
          | assumption
          | (simp [Chan.make]; done)
          | (simp [Chan.make]; omega)
          | (simp [Chan.make] at hsent ⊢; omega)
          | (rw [hm]; simp [Chan.make] at hsent ⊢; omega))
  | collector =>
    simp only [resultCollectorStep] at hs
    rcases hcoll with hk | hk | hk | hk <;> rw [hk] at hs
    · simp at hs
    · simp only [hrbuf] at hs
      split at hs
      · simp only [Option.some.injEq] at hs
        subst hs
        exact ⟨hconc, hworkers, hrbuf, hres, hcomp, by simp, hsent⟩
      · simp at hs
    · simp at hs
    · simp at hs
  | worker i err =>
    dsimp only at hs
    rw [workerStep_no_workers s i err hworkers] at hs
    cases hs

theorem InvZero_exec (acts : List Action) :
    ∀ (s s1 : Sys), InvZero s → exec s acts = some s1 → InvZero s1 := by
  induction acts with
  | nil =>
    intro s s1 h hs
    simp only [exec, Option.some.injEq] at hs
    subst hs
    exact h
  | cons a rest ih =>
    intro s s1 h hs
    simp only [exec] at hs
    cases hst : step s a with
    | none => simp [hst] at hs
    | some s2 =>
      simp only [hst] at hs
      exact ih s2 s1 (InvZero_step s s2 a h hst) hs

theorem InvZero_runInit (ts : List Task) (now : Int) :
    InvZero (runInit (submitAll (NewScheduler 0) ts) now) := by
  rw [submitAll_new]
  constructor <;> simp [runInit, Chan.make]

/-! ## The loop of `PrintReport` -/

theorem wrap64_add_wrap64 (x y : Int) : wrap64 (wrap64 x + y) = wrap64 (x + y) := by
  unfold wrap64
  omega

theorem wrap64_idem (x : Int) : wrap64 (wrap64 x) = wrap64 x := by
  unfold wrap64
  omega

theorem reportStep_total (i : Nat) (r : TaskResult) (acc : ReportAcc) :
    (reportStep i r acc).totalDuration = wrap64 (acc.totalDuration + r.Duration) := by
  unfold reportStep
  split <;> rfl

theorem reportStep_success (i : Nat) (r : TaskResult) (acc : ReportAcc) :
    (reportStep i r acc).successCount = acc.successCount + (if r.Success then 1 else 0) := by
  unfold reportStep
  cases r.Success <;> simp

theorem reportStep_fail (i : Nat) (r : TaskResult) (acc : ReportAcc) :
    (reportStep i r acc).failCount = acc.failCount + (if r.Success then 0 else 1) := by
  unfold reportStep
  cases r.Success <;> simp

theorem reportStep_out (i : Nat) (r : TaskResult) (acc : ReportAcc) :
    (reportStep i r acc).out = acc.out ++ [refLine i r] := by
  unfold reportStep refLine
  cases r.Success <;> simp

/-- The total the loop accumulates is the wrapped sum of the durations. -/
theorem reportLoop_total :
    ∀ (rs : List TaskResult) (i : Nat) (acc : ReportAcc),
      wrap64 acc.totalDuration = acc.totalDuration →
      (reportLoop rs i acc).totalDuration
        = wrap64 (acc.totalDuration + (rs.map (fun r => r.Duration)).sum)
  | [], i, acc, h => by simp [reportLoop, h]
  | r :: rs, i, acc, h => by
    have ih := reportLoop_total rs (i + 1) (reportStep i r acc)
      (by rw [reportStep_total]; exact wrap64_idem _)
    simp only [reportLoop, List.map_cons, List.sum_cons]
    rw [ih, reportStep_total, wrap64_add_wrap64, Int.add_assoc]

theorem reportLoop_success :
    ∀ (rs : List TaskResult) (i : Nat) (acc : ReportAcc),
      (reportLoop rs i acc).successCount = acc.successCount + (refSuccessCount rs : Int)
  | [], i, acc => by simp [reportLoop, refSuccessCount]
  | r :: rs, i, acc => by
    have ih := reportLoop_success rs (i + 1) (reportStep i r acc)
    simp only [reportLoop]
    rw [ih, reportStep_success]
    simp only [refSuccessCount, List.countP_cons]
    cases r.Success <;> simp <;> omega

theorem reportLoop_fail :
    ∀ (rs : List TaskResult) (i : Nat) (acc : ReportAcc),
      (reportLoop rs i acc).failCount = acc.failCount + (refFailCount rs : Int)
  | [], i, acc => by simp [reportLoop, refFailCount]
  | r :: rs, i, acc => by
    have ih := reportLoop_fail rs (i + 1) (reportStep i r acc)
    simp only [reportLoop]
    rw [ih, reportStep_fail]
    simp only [refFailCount, List.countP_cons]
    cases r.Success <;> simp <;> omega

theorem reportLoop_out :
    ∀ (rs : List TaskResult) (i : Nat) (acc : ReportAcc),
      (reportLoop rs i acc).out = acc.out ++ refLines rs i
  | [], i, acc => by simp [reportLoop, refLines]
  | r :: rs, i, acc => by
    have ih := reportLoop_out rs (i + 1) (reportStep i r acc)
    simp only [reportLoop, refLines]
    rw [ih, reportStep_out]
    simp

theorem refCounts_add (rs : List TaskResult) :
    refSuccessCount rs + refFailCount rs = rs.length := by
  induction rs with
  | nil => rfl
  | cons r rs ih =>
    simp only [refSuccessCount, refFailCount, List.countP_cons, List.length_cons] at ih ⊢
    cases r.Success <;> simp <;> omega

/-- The line printed at position `i` of the report is the one of the result
stored at position `i`. -/
theorem refLines_getElem? :
    ∀ (rs : List TaskResult) (start i : Nat),
      (refLines rs start)[i]? = (rs[i]?).map (refLine (start + i))
  | [], start, i => by simp [refLines]
  | r :: rs, start, 0 => by simp [refLines]
  | r :: rs, start, i + 1 => by
    have ih := refLines_getElem? rs (start + 1) i
    simp only [refLines, List.getElem?_cons_succ]
    rw [ih, Nat.add_assoc, Nat.add_comm 1 i]

/-! ## Auxiliary facts for the main results -/

/-- Equal weights for every weighting of names mean equal multisets of names. -/
theorem names_multiset_eq (rs : List TaskResult) (ts : List Task)
    (h : ∀ f : String → Nat, resWeight f rs = taskWeight f ts) :
    Multiset.ofList (rs.map TaskResult.TaskName) = Multiset.ofList (ts.map Task.Name) := by
  apply Multiset.coe_eq_coe.mpr
  apply List.perm_iff_count.mpr
  intro a
  rw [← resWeight_count, ← taskWeight_count]
  exact h _

theorem all_exited_of_live_zero (l : List WorkerPc) (h : wsum WorkerPc.live l = 0)
    (i : Nat) (w : WorkerPc) (hw : l[i]? = some w) : w = WorkerPc.exited := by
  have hge := wsum_ge WorkerPc.live l i w hw
  cases w <;> simp at hge ⊢ <;> omega

theorem workerStep_exited (s : Sys) (i : Nat) (err : GoError)
    (h : ∀ w, s.workers[i]? = some w → w = WorkerPc.exited) : workerStep s i err = none := by
  unfold workerStep
  cases hw : s.workers[i]? with
  | none => rfl
  | some w =>
    have := h w hw
    subst this
    rfl

/-- After the reset at the start of `Run`, no statement of any goroutine makes
`completed` smaller. -/
theorem step_completed_mono (s s1 : Sys) (a : Action) (hs : step s a = some s1)
    (hst : 1 ≤ s.main.stage) : s.sched.completed ≤ s1.sched.completed := by
  have hp0 := step_not_panicked s s1 a hs
  rw [step_of_not_panicked s a hp0] at hs
  cases a with
  | tick d =>
    simp only [Option.some.injEq] at hs
    subst hs
    exact Nat.le_refl _
  | main =>
    dsimp only at hs
    cases hm : s.main <;> simp only [RunStep, hm, Sys.die] at hs <;> rw [hm] at hst
    case start => simp at hst
    all_goals (repeat' split at hs)
    all_goals first
      | (simp at hs; done)
      | (simp only [Option.some.injEq] at hs; subst hs; exact Nat.le_refl _)
  | collector =>
    simp only [resultCollectorStep] at hs
    repeat' split at hs
    all_goals first
      | (simp at hs; done)
      | (simp only [Option.some.injEq] at hs; subst hs; simp)
  | worker i err =>
    simp only [workerStep, Sys.die] at hs
    repeat' split at hs
    all_goals first
      | (simp at hs; done)
      | (simp only [Option.some.injEq] at hs; subst hs; exact Nat.le_refl _)

theorem getElem?_set_same (l : List WorkerPc) (i : Nat) (w x : WorkerPc)
    (h : l[i]? = some w) : (l.set i x)[i]? = some x := by
  have hi : i < l.length := (List.getElem?_eq_some.mp h).1
  simp [List.getElem?_set, hi]

/-! ## Results are honest, and a worker is left alone by the other goroutines -/

theorem honest_mkResult (task : Task) (start : Int) (err : GoError) (d : Int) (n : Int) :
    honest (mkResult task start err d n) := rfl

theorem InvHonest_step (s s1 : Sys) (a : Action) (h : InvHonest s)
    (hs : step s a = some s1) : InvHonest s1 := by
  have hp0 := step_not_panicked s s1 a hs
  rw [step_of_not_panicked s a hp0] at hs
  obtain ⟨hres, hbuf, hcoll, hwork⟩ := h
  cases a with
  | tick d =>
    simp only [Option.some.injEq] at hs
    subst hs
    exact ⟨hres, hbuf, hcoll, hwork⟩
  | main =>
    dsimp only at hs
    cases hm : s.main <;> simp only [RunStep, hm, Sys.die] at hs
    all_goals (repeat' split at hs)
    all_goals first
      | (simp at hs; done)
      | (simp only [Option.some.injEq] at hs
         subst hs
         refine ⟨?_, ?_, ?_, ?_⟩ <;> dsimp only [] <;> first
          | assumption
          | (intro r hr; simp at hr; done)
          | (intro r hr; simp at hr; exact hwork r hr))
  | collector =>
    simp only [resultCollectorStep] at hs
    split at hs
    · simp at hs
    all_goals (rename_i hk)
    · split at hs
      · rename_i r0 rest hb
        simp only [Option.some.injEq] at hs
        subst hs
        refine ⟨hres, ?_, ?_, hwork⟩
        · intro r hr
          exact hbuf r (by rw [hb]; exact List.mem_cons_of_mem _ hr)
        · intro r hr
          simp at hr
          subst hr
          exact hbuf _ (by rw [hb]; exact List.mem_cons_self _ _)
      · split at hs
        · simp only [Option.some.injEq] at hs
          subst hs
          refine ⟨hres, hbuf, ?_, hwork⟩
          intro r hr
          simp at hr
        · simp at hs
    · split at hs
      · simp at hs
      · simp only [Option.some.injEq] at hs
        subst hs
        refine ⟨hres, hbuf, ?_, hwork⟩
        intro r hr
        simp at hr
        subst hr
        exact hcoll _ (Or.inl hk)
    · simp only [Option.some.injEq] at hs
      subst hs
      refine ⟨?_, hbuf, ?_, hwork⟩
      · intro r hr
        simp at hr
        rcases hr with hr | hr
        · exact hres r hr
        · subst hr
          exact hcoll _ (Or.inr hk)
      · intro r hr
        simp at hr
    · simp only [Option.some.injEq] at hs
      subst hs
      refine ⟨hres, hbuf, ?_, hwork⟩
      intro r hr
      simp at hr
    · simp only [Option.some.injEq] at hs
      subst hs
      refine ⟨hres, hbuf, ?_, hwork⟩
      intro r hr
      simp at hr
    · simp at hs
    · simp at hs
  | worker i err =>
    simp only [workerStep, Sys.die] at hs
    split at hs
    · simp at hs
    all_goals (rename_i hw; have hmem := List.getElem?_mem hw)
    all_goals (repeat' split at hs)
    all_goals first
      | (simp at hs; done)
      | (simp only [Option.some.injEq] at hs
         subst hs
         refine ⟨?_, ?_, ?_, ?_⟩ <;> dsimp only [] <;> first
          | assumption
          | (intro r hr
             simp at hr
             rcases hr with hr | hr
             · exact hbuf r hr
             · subst hr
               exact hwork _ hmem)
          | (intro r hr
             rcases List.mem_or_eq_of_mem_set hr with h1 | h1
             · exact hwork r h1
             · first
                | (cases h1; exact honest_mkResult _ _ _ _ _)
                | cases h1))

theorem InvHonest_exec (acts : List Action) :
    ∀ (s s1 : Sys), InvHonest s → exec s acts = some s1 → InvHonest s1 := by
  induction acts with
  | nil =>
    intro s s1 h hs
    simp only [exec, Option.some.injEq] at hs
    subst hs
    exact h
  | cons a rest ih =>
    intro s s1 h hs
    simp only [exec] at hs
    cases hst : step s a with
    | none => simp [hst] at hs
    | some s2 =>
      simp only [hst] at hs
      exact ih s2 s1 (InvHonest_step s s2 a h hst) hs

theorem InvHonest_runInit (sch : Scheduler) (now : Int)
    (hres : ∀ r, r ∈ sch.results → honest r)
    (hbuf : ∀ r, r ∈ sch.resultChan.buf → honest r) : InvHonest (runInit sch now) := by
  refine ⟨hres, hbuf, ?_, ?_⟩
  · intro r hr
    simp [runInit] at hr
  · intro r hr
    simp [runInit] at hr

theorem Inv_of_FirstRun (c : Int) (hc : 0 ≤ c) (ts : List Task) (s : Sys)
    (h : FirstRun c ts s) : Inv c ts s := by
  obtain ⟨now, acts, hs⟩ := h
  exact Inv_reach c hc ts now acts s hs

theorem Inv2_of_SecondRun (c : Int) (ts : List Task) (s : Sys)
    (h : SecondRun c ts s) : Inv2 c ts s := by
  obtain ⟨ts0, extra, s1, now, acts, ⟨now1, acts1, h1⟩, hm, hts, hs⟩ := h
  have hc := conc_nonneg_of_returned c ts0 now1 acts1 s1 h1 hm
  have hinv := Inv_reach c hc ts0 now1 acts1 s1 h1
  subst hts
  exact Inv2_exec c (ts0 ++ extra) acts _ s (Inv2_runInit c ts0 s1 hinv hm extra now) hs

theorem InvHonest_of_FirstRun (c : Int) (ts : List Task) (s : Sys)
    (h : FirstRun c ts s) : InvHonest s := by
  obtain ⟨now, acts, hs⟩ := h
  refine InvHonest_exec acts _ s (InvHonest_runInit _ now ?_ ?_) hs
  · intro r hr
    simp [submitAll_new] at hr
  · intro r hr
    simp [submitAll_new, Chan.make] at hr

theorem InvHonest_of_SecondRun (c : Int) (ts : List Task) (s : Sys)
    (h : SecondRun c ts s) : InvHonest s := by
  obtain ⟨ts0, extra, s1, now, acts, h1, hm, hts, hs⟩ := h
  have hh := InvHonest_of_FirstRun c ts0 s1 h1
  refine InvHonest_exec acts _ s (InvHonest_runInit _ now ?_ ?_) hs
  · intro r hr
    rw [submitAll_eq] at hr
    exact hh.hres r hr
  · intro r hr
    rw [submitAll_eq] at hr
    exact hh.hbuf r hr

/-- A worker's program counter is changed by no statement of another goroutine. -/
theorem step_frame_worker (s s1 : Sys) (a : Action) (i : Nat) (w : WorkerPc)
    (hw : s.workers[i]? = some w) (hs : step s a = some s1)
    (ha : ∀ e, a ≠ Action.worker i e) : s1.workers[i]? = some w := by
  have hp0 := step_not_panicked s s1 a hs
  rw [step_of_not_panicked s a hp0] at hs
  have hi : i < s.workers.length := (List.getElem?_eq_some.mp hw).1
  cases a with
  | tick d =>
    simp only [Option.some.injEq] at hs
    subst hs
    exact hw
  | main =>
    dsimp only at hs
    cases hm : s.main <;> simp only [RunStep, hm, Sys.die] at hs
    all_goals (repeat' split at hs)
    all_goals first
      | (simp at hs; done)
      | (simp only [Option.some.injEq] at hs
         subst hs
         first
          | exact hw
          | (dsimp only []; rw [List.getElem?_append_left hi]; exact hw))
  | collector =>
    obtain ⟨_, h2, _⟩ := resultCollectorStep_frame s s1 hs
    rw [h2]
    exact hw
  | worker j err =>
    have hji : j ≠ i := by
      intro h
      subst h
      exact ha err rfl
    simp only [workerStep, Sys.die] at hs
    repeat' split at hs
    all_goals first
      | (simp at hs; done)
      | (simp only [Option.some.injEq] at hs
         subst hs
         first
          | exact hw
          | (dsimp only []; rw [List.getElem?_set_ne hji]; exact hw))

theorem live_le_length : ∀ l : List WorkerPc, wsum WorkerPc.live l ≤ l.length
  | [] => Nat.le_refl _
  | w :: l => by
    rw [wsum_cons, List.length_cons]
    have ih := live_le_length l
    cases w <;> simp <;> omega

/-! ## Main results -/

/-- C2.  A worker that holds `task` and runs its loop body (while the clock
advances by `d1`, `d2`, `d3` between its statements and `Execute` returns
`err`) appends exactly one result to the result channel; that result is
`workerIteration` of the three clock readings, its `TaskName` is
`task.Name`, its `Error` is `err`, and its `Success` is `true` exactly when
`err` is `nil`.  No statement of another goroutine changes what the worker
holds, and in every state of a first or second `Run` every recorded result has
`Success = true` exactly when its `Error` is `nil`. -/
theorem worker_publishes_result (s : Sys) (i : Nat) (task : Task)
    (err e1 e3 e4 e5 : GoError) (d1 d2 d3 : Nat)
    (hp : s.panicked = none) (hw : s.workers[i]? = some (WorkerPc.fetched task))
    (hopen : s.sched.resultChan.closed = false)
    (hroom : s.sched.resultChan.buf.length < s.sched.resultChan.cap) :
    (∃ s1 r,
      exec s [Action.worker i e1, Action.tick d1, Action.worker i err, Action.tick d2,
        Action.worker i e3, Action.tick d3, Action.worker i e4, Action.worker i e5] = some s1 ∧
      r = workerIteration task s.clock err (s.clock + d1 + d2) (s.clock + d1 + d2 + d3) ∧
      s1.sched.resultChan.buf = s.sched.resultChan.buf ++ [r] ∧
      s1.workers[i]? = some WorkerPc.idle ∧
      r.TaskName = task.Name ∧ r.Error = err ∧ (r.Success = true ↔ err = none)) ∧
    (∀ (a : Action) (s1 : Sys), step s a = some s1 → (∀ e, a ≠ Action.worker i e) →
      s1.workers[i]? = some (WorkerPc.fetched task)) ∧
    (∀ (c : Int) (ts : List Task) (s2 : Sys), FirstRun c ts s2 ∨ SecondRun c ts s2 →
      ∀ r, r ∈ s2.sched.GetResults → (r.Success = true ↔ r.Error = none)) := by
  have hi : i < s.workers.length := (List.getElem?_eq_some.mp hw).1
  have hsucc : (workerIteration task s.clock err (s.clock + d1 + d2)
      (s.clock + d1 + d2 + d3)).Success = true ↔ err = none := by
    cases err <;> simp [workerIteration, mkResult]
  refine ⟨?_, ?_, ?_⟩
  · simp [exec, step, workerStep, hp, hw, hopen, hroom, List.getElem?_set, hi]
    exact ⟨rfl, rfl, rfl, hsucc⟩
  · intro a s1 hs ha
    exact step_frame_worker s s1 a i _ hw hs ha
  · intro c ts s2 hrun r hr
    have hh : InvHonest s2 := by
      rcases hrun with h1 | h2
      · exact InvHonest_of_FirstRun c ts s2 h1
      · exact InvHonest_of_SecondRun c ts s2 h2
    have hr1 := hh.hres r hr
    unfold honest at hr1
    rw [hr1]
    cases r.Error <;> simp

/-- Witness of `worker_publishes_result`: worker 0 of `demoFetched` runs task
`a`, whose `Execute` fails after 5 time units; 2 more pass before the literal is
built. -/
theorem worker_publishes_result_witness :
    demoFetched.panicked = none ∧
    demoFetched.workers[0]? = some (WorkerPc.fetched { Name := "a" }) ∧
    demoFetched.sched.resultChan.closed = false ∧
    demoFetched.sched.resultChan.buf.length < demoFetched.sched.resultChan.cap ∧
    ∃ s1 r,
      exec demoFetched [Action.worker 0 none, Action.tick 5, Action.worker 0 (some "late"),
        Action.tick 0, Action.worker 0 none, Action.tick 2, Action.worker 0 none,
        Action.worker 0 none] = some s1 ∧
      r = workerIteration { Name := "a" } demoFetched.clock (some "late")
        (demoFetched.clock + (5 : Nat) + (0 : Nat))
        (demoFetched.clock + (5 : Nat) + (0 : Nat) + (2 : Nat)) ∧
      s1.sched.resultChan.buf = demoFetched.sched.resultChan.buf ++ [r] ∧
      s1.workers[0]? = some WorkerPc.idle ∧
      r.TaskName = "a" ∧ r.Error = some "late" ∧ (r.Success = true ↔ some "late" = none) :=
  ⟨rfl, rfl, rfl, by decide,
    (worker_publishes_result demoFetched 0 { Name := "a" } (some "late") none none none none
      5 0 2 rfl rfl rfl (by decide)).1⟩

/-- C3, counterexample.  With the clock reading 0 at `start := time.Now()`, 5
inside `time.Since(start)` and 7 at the `time.Now()` of the literal
(non-decreasing readings), the recorded `Duration` is 5 while `EndTime` minus
`StartTime` is 7. -/
theorem duration_ne_end_minus_start :
    (0 : Int) ≤ 5 ∧ (5 : Int) ≤ 7 ∧
    (workerIteration { Name := "a" } 0 none 5 7).Duration = 5 ∧
    (workerIteration { Name := "a" } 0 none 5 7).EndTime
      - (workerIteration { Name := "a" } 0 none 5 7).StartTime = 7 ∧
    (workerIteration { Name := "a" } 0 none 5 7).Duration
      ≠ (workerIteration { Name := "a" } 0 none 5 7).EndTime
        - (workerIteration { Name := "a" } 0 none 5 7).StartTime ∧
    (workerIteration { Name := "a" } 0 none 5 7).Duration
      ≠ timeSub (workerIteration { Name := "a" } 0 none 5 7).EndTime
        (workerIteration { Name := "a" } 0 none 5 7).StartTime := by
  decide

theorem timeSub_mono (a b u : Int) (h : a ≤ b) : timeSub a u ≤ timeSub b u := by
  unfold timeSub minInt64 maxInt64
  split <;> split <;> (try split) <;> (try split) <;> omega

/-- C3, amended.  The recorded `Duration` is the saturated difference between
the clock reading taken inside `time.Since(start)` and `StartTime`; `EndTime` is
a later, separate reading, so under a clock whose successive readings do not
decrease `Duration` is at most `EndTime` minus `StartTime`, and the difference
between the two is at most the time that passed between the two readings
(none when the two readings coincide). -/
theorem duration_le_end_minus_start (task : Task) (err : GoError) (t0 t1 t2 : Int)
    (h01 : t0 ≤ t1) (h12 : t1 ≤ t2) :
    (workerIteration task t0 err t1 t2).StartTime = t0 ∧
    (workerIteration task t0 err t1 t2).EndTime = t2 ∧
    (workerIteration task t0 err t1 t2).Duration = timeSub t1 t0 ∧
    0 ≤ (workerIteration task t0 err t1 t2).Duration ∧
    (workerIteration task t0 err t1 t2).Duration
      ≤ timeSub (workerIteration task t0 err t1 t2).EndTime
          (workerIteration task t0 err t1 t2).StartTime ∧
    timeSub (workerIteration task t0 err t1 t2).EndTime
        (workerIteration task t0 err t1 t2).StartTime
      - (workerIteration task t0 err t1 t2).Duration ≤ t2 - t1 := by
  refine ⟨rfl, rfl, rfl, ?_, timeSub_mono t1 t2 t0 h12, ?_⟩
  · simp only [workerIteration, mkResult, timeSince]
    unfold timeSub minInt64 maxInt64
    split <;> (try split) <;> omega
  · simp only [workerIteration, mkResult, timeSince]
    unfold timeSub minInt64 maxInt64
    split <;> split <;> (try split) <;> (try split) <;> omega

/-- Witness of `duration_le_end_minus_start` at the readings 0, 5 and 7. -/
theorem duration_le_end_minus_start_witness :
    (0 : Int) ≤ 5 ∧ (5 : Int) ≤ 7 ∧
    (workerIteration { Name := "a" } 0 none 5 7).Duration = timeSub 5 0 ∧
    (workerIteration { Name := "a" } 0 none 5 7).Duration
      ≤ timeSub (workerIteration { Name := "a" } 0 none 5 7).EndTime
          (workerIteration { Name := "a" } 0 none 5 7).StartTime :=
  ⟨by decide, by decide,
    (duration_le_end_minus_start { Name := "a" } none 0 5 7 (by decide) (by decide)).2.2.1,
    (duration_le_end_minus_start { Name := "a" } none 0 5 7 (by decide) (by decide)).2.2.2.2.1⟩

/-- C4.  On a scheduler whose `results` is empty `PrintReport` does not
complete: line 207 divides by `len(s.results) = 0` and the process dies with
"integer divide by zero".  This holds for a scheduler that was never run, for
any empty `results`, and for the scheduler left by a `Run` with no task. -/
theorem PrintReport_empty_divides_by_zero :
    (NewScheduler 3).PrintReport = Except.error Panic.divideByZero ∧
    PrintReport [] = Except.error Panic.divideByZero ∧
    exec (runInit (submitAll (NewScheduler 1) []) 0) emptySchedule = some emptyFinal ∧
    emptyFinal.main = MainPc.returned ∧
    emptyFinal.sched.PrintReport = Except.error Panic.divideByZero :=
  ⟨rfl, rfl, by decide, rfl, rfl⟩

/-- C5.  In every state a `Run` (first or second, concurrency at least 1)
reaches after the reset at its start, `completed` is at most `totalTasks`, which
is the number of submitted tasks, and no statement of any goroutine, in
particular none of the collector, makes `completed` smaller. -/
theorem completed_monotone_bounded (c : Int) (hc : 1 ≤ c) (ts : List Task) (s : Sys)
    (hrun : FirstRun c ts s ∨ SecondRun c ts s) (hst : 1 ≤ s.main.stage) :
    s.sched.completed ≤ s.sched.totalTasks ∧ s.sched.totalTasks = ts.length ∧
    (∀ s1, step s Action.collector = some s1 → s.sched.completed ≤ s1.sched.completed) ∧
    (∀ a s1, step s a = some s1 → s.sched.completed ≤ s1.sched.completed) := by
  have hmono : ∀ a s1, step s a = some s1 → s.sched.completed ≤ s1.sched.completed :=
    fun a s1 h1 => step_completed_mono s s1 a h1 hst
  rcases hrun with h1 | h2
  · have h := Inv_of_FirstRun c (by omega) ts s h1
    have htot := (h.htot hst).1
    have hacct := h.acct (fun _ => 1) hst
    simp only [taskWeight_one, resWeight_one] at hacct
    have hcomp := h.hcomp
    exact ⟨by omega, htot, hmono _, hmono⟩
  · have h := Inv2_of_SecondRun c ts s h2
    have htot := (h.htot hst).1
    have hcomp := (h.hcomp hst).1
    exact ⟨by omega, htot, hmono _, hmono⟩

/-- Witness of `completed_monotone_bounded`: the state `demoMid`, in which the
collector is about to unlock after counting the first of two results. -/
theorem completed_monotone_bounded_witness :
    (1 : Int) ≤ 2 ∧
    (FirstRun 2 demoTasks demoMid ∨ SecondRun 2 demoTasks demoMid) ∧
    1 ≤ demoMid.main.stage ∧
    demoMid.sched.completed ≤ demoMid.sched.totalTasks ∧
    demoMid.sched.totalTasks = demoTasks.length :=
  ⟨by decide, Or.inl ⟨0, demoSchedule.take 30, by decide⟩, by decide,
    (completed_monotone_bounded 2 (by decide) demoTasks demoMid
      (Or.inl ⟨0, demoSchedule.take 30, by decide⟩) (by decide)).1,
    (completed_monotone_bounded 2 (by decide) demoTasks demoMid
      (Or.inl ⟨0, demoSchedule.take 30, by decide⟩) (by decide)).2.1⟩

/-- C7.  For a non-empty `results`, `PrintReport` completes and its statistics
are the reference ones: the counts of results with `Success` true and false
(which add up to `len(results)`), the `int64` sum of the durations, the mean
as the truncating quotient of that sum by `len(results)`, and one line per
result in stored order. -/
theorem PrintReport_statistics (results : List TaskResult) (hne : results ≠ []) :
    ∃ rep, PrintReport results = Except.ok rep ∧
      rep.successCount = refSuccessCount results ∧
      rep.failCount = refFailCount results ∧
      rep.successCount + rep.failCount = results.length ∧
      rep.total = results.length ∧
      rep.totalDuration = refTotalDuration results ∧
      rep.avgDuration = Int.tdiv (refTotalDuration results) results.length ∧
      rep.lines = refLines results 0 ∧
      (∀ i, rep.lines[i]? = (results[i]?).map (refLine i)) := by
  have hlen : results.length ≠ 0 := by
    intro h0
    exact hne (List.length_eq_zero.mp h0)
  have ht := reportLoop_total results 0
    { totalDuration := 0, successCount := 0, failCount := 0, out := [] } rfl
  have hsc := reportLoop_success results 0
    { totalDuration := 0, successCount := 0, failCount := 0, out := [] }
  have hfc := reportLoop_fail results 0
    { totalDuration := 0, successCount := 0, failCount := 0, out := [] }
  have ho := reportLoop_out results 0
    { totalDuration := 0, successCount := 0, failCount := 0, out := [] }
  have hadd := refCounts_add results
  simp only [Int.zero_add, List.nil_append] at ht hsc hfc ho
  have hpr : PrintReport results = Except.ok
      { lines := (reportLoop results 0
          { totalDuration := 0, successCount := 0, failCount := 0, out := [] }).out
        successCount := (reportLoop results 0
          { totalDuration := 0, successCount := 0, failCount := 0, out := [] }).successCount
        failCount := (reportLoop results 0
          { totalDuration := 0, successCount := 0, failCount := 0, out := [] }).failCount
        total := results.length
        totalDuration := (reportLoop results 0
          { totalDuration := 0, successCount := 0, failCount := 0, out := [] }).totalDuration
        avgDuration := Int.tdiv (reportLoop results 0
          { totalDuration := 0, successCount := 0, failCount := 0, out := [] }).totalDuration
          (results.length : Int) } := by
    simp only [PrintReport, hlen, if_false]
  refine ⟨_, hpr, hsc, hfc, ?_, rfl, ht, ?_, ho, ?_⟩
  · simp only [hsc, hfc]
    omega
  · simp only [ht]
    rfl
  · intro i
    simp only [ho]
    rw [refLines_getElem?, Nat.zero_add]

/-- Witness of `PrintReport_statistics`: the two results of `demoFinal`. -/
theorem PrintReport_statistics_witness :
    demoFinal.sched.results ≠ [] ∧
    ∃ rep, PrintReport demoFinal.sched.results = Except.ok rep ∧
      rep.successCount = refSuccessCount demoFinal.sched.results ∧
      rep.failCount = refFailCount demoFinal.sched.results ∧
      rep.successCount + rep.failCount = demoFinal.sched.results.length ∧
      rep.total = demoFinal.sched.results.length ∧
      rep.totalDuration = refTotalDuration demoFinal.sched.results ∧
      rep.avgDuration
        = Int.tdiv (refTotalDuration demoFinal.sched.results) demoFinal.sched.results.length ∧
      rep.lines = refLines demoFinal.sched.results 0 ∧
      (∀ i, rep.lines[i]? = (demoFinal.sched.results[i]?).map (refLine i)) :=
  ⟨by decide, PrintReport_statistics demoFinal.sched.results (by decide)⟩

/-- C9.  `NewScheduler(0)` builds a scheduler, and a first `Run` on it with any
submitted tasks never dies and never has a worker; as long as `Run` has not
returned some goroutine can execute a statement, the schedule has no more
goroutine statements than the work left at the start, and from every state
reached some continuation makes `Run` return; when `Run` has returned, `results`
is empty and `completed` is 0 while `totalTasks` is the number of submitted
tasks, all of which still sit in the task channel. -/
theorem zero_concurrency_drops_all (ts : List Task) (now : Int)
    (acts : List Action) (s : Sys)
    (hs : exec (runInit (submitAll (NewScheduler 0) ts) now) acts = some s) :
    (NewScheduler 0).concurrency = 0 ∧
    (s.main ≠ MainPc.returned → ∃ a s1, Action.isStmt a = true ∧ step s a = some s1) ∧
    stmtCount acts ≤ workLeft (runInit (submitAll (NewScheduler 0) ts) now) ∧
    (∃ more s1, exec s more = some s1 ∧ s1.main = MainPc.returned) ∧
    s.panicked = none ∧ s.workers = [] ∧
    (s.main = MainPc.returned →
      s.sched.GetResults = [] ∧ s.sched.completed = 0 ∧
      s.sched.totalTasks = ts.length ∧ s.taskChan.buf.length = ts.length) := by
  have h := Inv_reach 0 (Int.le_refl 0) ts now acts s hs
  have hz := InvZero_exec acts _ s (InvZero_runInit ts now) hs
  have hbound := stmtCount_le_workLeft acts _ s hs h.hp
  refine ⟨rfl, Inv_progress 0 ts s h, by omega,
    Inv_returns 0 ts (workLeft s) s (Nat.le_refl _) h, h.hp, hz.hworkers, ?_⟩
  intro hm
  have hsent := hz.hsent
  rw [hm, h.htasks] at hsent
  simp only [MainPc.pending, List.length_nil, Nat.add_zero] at hsent
  exact ⟨hz.hres, hz.hcomp, (h.htot (by rw [hm]; simp)).1, hsent⟩

/-- Witness of `zero_concurrency_drops_all`: the run `zeroSchedule` on two tasks. -/
theorem zero_concurrency_drops_all_witness :
    exec (runInit (submitAll (NewScheduler 0) demoTasks) 0) zeroSchedule = some zeroFinal ∧
    zeroFinal.main = MainPc.returned ∧
    1 ≤ demoTasks.length ∧
    zeroFinal.sched.GetResults = [] ∧ zeroFinal.sched.completed = 0 ∧
    zeroFinal.sched.totalTasks = demoTasks.length ∧
    zeroFinal.taskChan.buf.length = demoTasks.length :=
  ⟨by decide, rfl, by decide,
    (zero_concurrency_drops_all demoTasks 0 zeroSchedule zeroFinal
      (by decide)).2.2.2.2.2.2 rfl⟩

end Chluder
